import Mathlib

/-!
# ofbx tokenizer: a shallow embedding of `ofbx.cpp`

Pointers are natural-number addresses.  A parse buffer is the list of bytes stored at the
addresses `[cursor.begin, cursor.begin + buf.length)`.  Every function that advances the
cursor returns the cursor it leaves behind, also when it fails.

Two kinds of outcome are kept apart from the `OptionalError` results of the program:
an access that C++ leaves undefined (`Step.fault`: a load outside `[begin, end)`, a member
access through a null `Element*`), and the exhaustion of the recursion budget of the
embedding (`Step.timeout`).

Integers are little-endian, addresses do not wrap (a 64-bit address plus a 32-bit length).
-/

namespace Ofbx

/-- One `uint8`. -/
abbrev Byte := Fin 256

/-- The `struct Cursor` of the source; `end_` is its field `end`. -/
structure Cursor where
  current : Nat
  begin : Nat
  end_ : Nat
deriving DecidableEq, Repr

/-- The `DataView` of the source: a span of the parse buffer. -/
structure DataView where
  begin : Nat
  end_ : Nat
  is_binary : Bool
deriving DecidableEq, Repr

/-- The `Property` node; the `next` link is the tail of the list that holds the node.
`count` is only assigned by the text reader (it is `0` here for a binary property). -/
structure Property where
  type : Nat
  value : DataView
  count : Nat
deriving DecidableEq, Repr

/-- The value of an `Element*`: null, or an element with its name view, its property list
(the chain through `next`), its first child and its next sibling. -/
inductive ElemPtr where
  | null : ElemPtr
  | elem (id : DataView) (first_property : List Property) (child : ElemPtr)
      (sibling : ElemPtr) : ElemPtr
deriving DecidableEq, Repr

/-- The messages passed to `Error(...)`. -/
inductive ErrorMsg where
  | readingPastTheEnd
  | unknownPropertyType
  | unexpectedEndOfFile
  | todo
deriving DecidableEq, Repr

/-- Behaviour the C++ standard leaves undefined. -/
inductive Fault where
  | outOfBounds
  | nullDeref
deriving DecidableEq, Repr

/-- Outcome of one call on a cursor. -/
inductive Step (α : Type) where
  | ok (value : α) (cursor : Cursor) : Step α
  | error (msg : ErrorMsg) (cursor : Cursor) : Step α
  | fault (f : Fault) : Step α
  | timeout : Step α
deriving DecidableEq, Repr

/-- The byte `*p` for an address `p`: defined only inside `[begin, end)` and inside the
buffer. -/
def load (buf : List Byte) (c : Cursor) (p : Nat) : Option Byte :=
  if c.begin ≤ p ∧ p < c.end_ then buf[p - c.begin]? else none

/-- The little-endian value of the `n` bytes at address `p`. -/
def loadLE (buf : List Byte) (c : Cursor) (p : Nat) : Nat → Option Nat
  | 0 => some 0
  | n + 1 =>
    match load buf c p, loadLE buf c (p + 1) n with
    | some b, some v => some (b.val + 256 * v)
    | _, _ => none

/-- The template `read<T>`, with `size = sizeof(T)`. -/
def read (buf : List Byte) (size : Nat) (c : Cursor) : Step Nat :=
  if c.current + size > c.end_ then .error .readingPastTheEnd c
  else
    match loadLE buf c c.current size with
    | none => .fault .outOfBounds
    | some value => .ok value { c with current := c.current + size }

/-- The function `readShortString`. -/
def readShortString (buf : List Byte) (c : Cursor) : Step DataView :=
  match read buf 1 c with
  | .ok length c1 =>
    if c1.current + length > c1.end_ then .error .readingPastTheEnd c1
    else
      .ok { begin := c1.current, end_ := c1.current + length, is_binary := true }
        { c1 with current := c1.current + length }
  | .error e c1 => .error e c1
  | .fault f => .fault f
  | .timeout => .timeout

/-- The function `readLongString`. -/
def readLongString (buf : List Byte) (c : Cursor) : Step DataView :=
  match read buf 4 c with
  | .ok length c1 =>
    if c1.current + length > c1.end_ then .error .readingPastTheEnd c1
    else
      .ok { begin := c1.current, end_ := c1.current + length, is_binary := true }
        { c1 with current := c1.current + length }
  | .error e c1 => .error e c1
  | .fault f => .fault f
  | .timeout => .timeout

/-- The tail of `readProperty` after the switch: `prop.value.end = cursor.current`. -/
def finishProperty (type : Nat) (valueBegin : Nat) (c : Cursor) : Step Property :=
  .ok { type := type,
        value := { begin := valueBegin, end_ := c.current, is_binary := true },
        count := 0 } c

/-- The cases `'Y' 'C' 'I' 'F' 'D' 'L'` of `readProperty`: `cursor.current += n`, with no
comparison against `cursor.end`. -/
def skipFixed (type : Nat) (n : Nat) (c : Cursor) : Step Property :=
  finishProperty type c.current { c with current := c.current + n }

/-- The case `'R'` of `readProperty`. -/
def readRaw (buf : List Byte) (type : Nat) (c : Cursor) : Step Property :=
  match read buf 4 c with
  | .ok len c1 =>
    if c1.current + len > c1.end_ then .error .readingPastTheEnd c1
    else finishProperty type c.current { c1 with current := c1.current + len }
  | .error e c1 => .error e c1
  | .fault f => .fault f
  | .timeout => .timeout

/-- The cursor a `read<T>` leaves behind when it returns (a value or an error). -/
def Step.cursorD {α : Type} (s : Step α) (c : Cursor) : Cursor :=
  match s with
  | .ok _ c1 => c1
  | .error _ c1 => c1
  | _ => c

/-- The cases `'b' 'f' 'd' 'l' 'i'` of `readProperty`: the three reads are all made before
their results are tested. -/
def readArrayBlock (buf : List Byte) (type : Nat) (c : Cursor) : Step Property :=
  match read buf 4 c with
  | .fault f => .fault f
  | .timeout => .timeout
  | length =>
    match read buf 4 (length.cursorD c) with
    | .fault f => .fault f
    | .timeout => .timeout
    | encoding =>
      match read buf 4 (encoding.cursorD c) with
      | .fault f => .fault f
      | .timeout => .timeout
      | .error e c3 => .error e c3
      | .ok comp_len c3 =>
        match length, encoding with
        | .ok _ _, .ok _ _ =>
          if c3.current + comp_len > c3.end_ then .error .readingPastTheEnd c3
          else finishProperty type c.current { c3 with current := c3.current + comp_len }
        | _, _ => .error .readingPastTheEnd c3

/-- The function `readProperty`. -/
def readProperty (buf : List Byte) (c : Cursor) : Step Property :=
  if c.current = c.end_ then .error .readingPastTheEnd c
  else
    match load buf c c.current with
    | none => .fault .outOfBounds
    | some tag =>
      let c1 : Cursor := { c with current := c.current + 1 }
      match tag.val with
      | 83 => -- 'S'
        match readLongString buf c1 with
        | .ok val c2 => .ok { type := 83, value := val, count := 0 } c2
        | .error e c2 => .error e c2
        | .fault f => .fault f
        | .timeout => .timeout
      | 89 => skipFixed 89 2 c1 -- 'Y'
      | 67 => skipFixed 67 1 c1 -- 'C'
      | 73 => skipFixed 73 4 c1 -- 'I'
      | 70 => skipFixed 70 4 c1 -- 'F'
      | 68 => skipFixed 68 8 c1 -- 'D'
      | 76 => skipFixed 76 8 c1 -- 'L'
      | 82 => readRaw buf 82 c1 -- 'R'
      | 98 => readArrayBlock buf 98 c1 -- 'b'
      | 102 => readArrayBlock buf 102 c1 -- 'f'
      | 100 => readArrayBlock buf 100 c1 -- 'd'
      | 108 => readArrayBlock buf 108 c1 -- 'l'
      | 105 => readArrayBlock buf 105 c1 -- 'i'
      | _ => .error .unknownPropertyType c1

/-- The conversion `(ptrdiff_t)x` of a `uint64` value. -/
def toPtrdiff (x : Nat) : Int :=
  if x < 2 ^ 63 then (x : Int) else (x : Int) - 2 ^ 64

/-- The function `readElementOffset`; its parameter `version` is a `uint16`. -/
def readElementOffset (buf : List Byte) (c : Cursor) (version : Nat) : Step Nat :=
  if version ≥ 7500 then read buf 8 c else read buf 4 c

/-- The implicit conversion of the `uint32 version` of `readElement` to the `uint16`
parameter of `readElementOffset`. -/
def toUint16 (version : Nat) : Nat := version % 65536

/-- The constant `BLOCK_SENTINEL_LENGTH` of `readElement`, from its `uint32 version`. -/
def blockSentinelLength (version : Nat) : Nat :=
  if version ≥ 7500 then 25 else 13

/-- The property loop of `readElement`:
`for (uint32 i = 0; i < prop_count.getValue(); ++i)`, the counter wrapping at `2^32`. -/
def readProperties (buf : List Byte) (prop_count : Nat) :
    Nat → Nat → Cursor → Step (List Property)
  | 0, _, _ => .timeout
  | fuel + 1, i, c =>
    if i < prop_count then
      match readProperty buf c with
      | .ok prop c1 =>
        match readProperties buf prop_count fuel ((i + 1) % 2 ^ 32) c1 with
        | .ok rest c2 => .ok (prop :: rest) c2
        | .error e c2 => .error e c2
        | .fault f => .fault f
        | .timeout => .timeout
      | .error e c1 => .error e c1
      | .fault f => .fault f
      | .timeout => .timeout
    else .ok [] c

/-- What `readElement` has decoded when it reaches its line 197. -/
structure ElementHead where
  end_offset : Nat
  prop_count : Nat
  prop_length : Nat
  id : DataView
  first_property : List Property
deriving DecidableEq, Repr

/-- Lines 165-195 of `readElement`: the three offset fields, the name and the property list.
`none` is the `nullptr` returned for a zero end offset.  The property loop gets one unit of
budget for every byte left and one more: a property that is read takes a byte. -/
def readElementHead (buf : List Byte) (version : Nat) (c : Cursor) :
    Step (Option ElementHead) :=
  match readElementOffset buf c (toUint16 version) with
  | .ok end_offset c1 =>
    if end_offset = 0 then .ok none c1
    else
      match readElementOffset buf c1 (toUint16 version) with
      | .fault f => .fault f
      | .timeout => .timeout
      | prop_count =>
        match readElementOffset buf (prop_count.cursorD c1) (toUint16 version) with
        | .fault f => .fault f
        | .timeout => .timeout
        | .error e c3 => .error e c3
        | .ok prop_length c3 =>
          match prop_count with
          | .ok count _ =>
            match readShortString buf c3 with
            | .ok id c4 =>
              match readProperties buf count (c4.end_ - c4.current + 1) 0 c4 with
              | .ok props c5 =>
                .ok (some { end_offset := end_offset, prop_count := count,
                            prop_length := prop_length, id := id,
                            first_property := props }) c5
              | .error e c5 => .error e c5
              | .fault f => .fault f
              | .timeout => .timeout
            | .error e c4 => .error e c4
            | .fault f => .fault f
            | .timeout => .timeout
          | _ => .error .readingPastTheEnd c3
  | .error e c1 => .error e c1
  | .fault f => .fault f
  | .timeout => .timeout

/-- The child loop of `readElement` (lines 201-211), `readElem` being the recursive call and
`limit` the value `(ptrdiff_t)end_offset - BLOCK_SENTINEL_LENGTH`.  The result is the chain
hanging from `element.child`.  After a null child, `link = &(*link).sibling` is a member
access through a null pointer. -/
def readChildren (readElem : Cursor → Step ElemPtr) (limit : Int) :
    Nat → Cursor → Step ElemPtr
  | 0, _ => .timeout
  | fuel + 1, c =>
    if (c.current : Int) - (c.begin : Int) < limit then
      match readElem c with
      | .ok child c1 =>
        match child with
        | .null => .fault .nullDeref
        | .elem id props ch _ =>
          match readChildren readElem limit fuel c1 with
          | .ok rest c2 => .ok (.elem id props ch rest) c2
          | .error e c2 => .error e c2
          | .fault f => .fault f
          | .timeout => .timeout
      | .error e c1 => .error e c1
      | .fault f => .fault f
      | .timeout => .timeout
    else .ok .null c

/-- The function `readElement`; `fuel` bounds the depth of the recursion and the length of
each child loop. -/
def readElement (buf : List Byte) (version : Nat) : Nat → Cursor → Step ElemPtr
  | 0, _ => .timeout
  | fuel + 1, c =>
    match readElementHead buf version c with
    | .ok none c1 => .ok .null c1
    | .ok (some h) c1 =>
      if (c1.current : Int) - (c1.begin : Int) ≥ toPtrdiff h.end_offset then
        .ok (.elem h.id h.first_property .null .null) c1
      else
        match readChildren (readElement buf version fuel)
            (toPtrdiff h.end_offset - (blockSentinelLength version : Int)) fuel c1 with
        | .ok children c2 =>
          if c2.current + blockSentinelLength version > c2.end_ then
            .error .readingPastTheEnd c2
          else
            .ok (.elem h.id h.first_property children .null)
              { c2 with current := c2.current + blockSentinelLength version }
        | .error e c2 => .error e c2
        | .fault f => .fault f
        | .timeout => .timeout
    | .error e c1 => .error e c1
    | .fault f => .fault f
    | .timeout => .timeout

/-- Modelled from the spec: the value of `sizeof(Header)`, whose packing the source leaves
out; the container layout is `magic[21] reserved[2] version:u32` with no padding. -/
def headerSize : Nat := 27

/-- Modelled from the spec: the offset of `Header::version` in that layout. -/
def versionOffset : Nat := 23

/-- The loop `for (;;)` of `tokenize`; the result is the chain hanging from `root.child`. -/
def tokenizeLoop (buf : List Byte) (version : Nat) (elemFuel : Nat) :
    Nat → Cursor → Step ElemPtr
  | 0, _ => .timeout
  | fuel + 1, c =>
    match readElement buf version elemFuel c with
    | .ok child c1 =>
      match child with
      | .null => .ok .null c1
      | .elem id props ch _ =>
        match tokenizeLoop buf version elemFuel fuel c1 with
        | .ok rest c2 => .ok (.elem id props ch rest) c2
        | .error e c2 => .error e c2
        | .fault f => .fault f
        | .timeout => .timeout
    | .error e c1 => .error e c1
    | .fault f => .fault f
    | .timeout => .timeout

/-- The cursor `tokenize` starts from: past the header, whatever the size. -/
def startCursor (buf : List Byte) (data : Nat) : Cursor :=
  { current := data + headerSize, begin := data, end_ := data + buf.length }

/-- The null view of the synthetic root (`id.begin = id.end = nullptr`). -/
def nullView : DataView := { begin := 0, end_ := 0, is_binary := true }

/-- The function `tokenize(data, size)`: `buf` holds the `size` bytes stored at `data`.
The field `header.version` is loaded without a test on `size`. -/
def tokenize (buf : List Byte) (data : Nat) : Step ElemPtr :=
  match loadLE buf (startCursor buf data) (data + versionOffset) 4 with
  | none => .fault .outOfBounds
  | some version =>
    match tokenizeLoop buf version (buf.length + 2) (buf.length + 2)
        (startCursor buf data) with
    | .ok chain c => .ok (.elem nullView [] chain .null) c
    | .error e c => .error e c
    | .fault f => .fault f
    | .timeout => .timeout

/-- The C function `isdigit` on a byte (the "C" locale). -/
def isdigit (b : Byte) : Bool := 48 ≤ b.val && b.val ≤ 57

/-- The C function `isspace` on a byte (the "C" locale): space, `\t \n \v \f \r`. -/
def isspace (b : Byte) : Bool := b.val = 32 || (9 ≤ b.val && b.val ≤ 13)

/-- The guarded test `cursor.current < cursor.end && p(*cursor.current)`; `none` when the
load it makes is undefined. -/
def testAt (buf : List Byte) (c : Cursor) (p : Byte → Bool) : Option Bool :=
  if c.current < c.end_ then (load buf c c.current).map p else some false

/-- The statement `++cursor.current`. -/
def Cursor.advance (c : Cursor) : Cursor := { c with current := c.current + 1 }

/-- The loop `while (cursor.current < cursor.end && p(*cursor.current)) ++cursor.current;`. -/
def skipWhile (buf : List Byte) (p : Byte → Bool) : Nat → Cursor → Step Unit
  | 0, _ => .timeout
  | fuel + 1, c =>
    match testAt buf c p with
    | none => .fault .outOfBounds
    | some true => skipWhile buf p fuel c.advance
    | some false => .ok () c

/-- The budget of a loop that advances by one byte each round: the bytes left, and one. -/
def Cursor.budget (c : Cursor) : Nat := c.end_ - c.current + 1

/-- The function `skipInsignificantWhitespaces`. -/
def skipInsignificantWhitespaces (buf : List Byte) (c : Cursor) : Step Unit :=
  skipWhile buf (fun b => isspace b && b.val ≠ 10) c.budget c

/-- The statement `if (cursor.current < cursor.end) ++cursor.current;`. -/
def Cursor.advanceIfInside (c : Cursor) : Cursor :=
  if c.current < c.end_ then c.advance else c

/-- The state of the array scan of `readTextProperty`. -/
structure ArrayScan where
  type : Nat
  count : Nat
  is_any : Bool
deriving DecidableEq, Repr

/-- One round of the array scan of `readTextProperty` on the byte `b = *cursor.current`. -/
def ArrayScan.step (s : ArrayScan) (b : Byte) : ArrayScan :=
  let s1 : ArrayScan :=
    if b.val = 44 then -- ','
      { s with count := if s.is_any then s.count + 1 else s.count, is_any := false }
    else if !isspace b && b.val ≠ 10 then { s with is_any := true }
    else s
  if b.val = 46 then { s1 with type := 100 } else s1 -- '.' gives 'd'

/-- The loop `while (cursor.current < cursor.end && *cursor.current != '}')` of
`readTextProperty`. -/
def scanArray (buf : List Byte) : Nat → ArrayScan → Cursor → Step ArrayScan
  | 0, _, _ => .timeout
  | fuel + 1, s, c =>
    if c.current < c.end_ then
      match load buf c c.current with
      | none => .fault .outOfBounds
      | some b =>
        if b.val ≠ 125 then scanArray buf fuel (s.step b) c.advance
        else .ok s c
    else .ok s c

/-- The string case of `readTextProperty` (lines 265-275). -/
def readTextString (buf : List Byte) (c : Cursor) : Step Property :=
  let c1 := c.advance
  match skipWhile buf (fun b => b.val ≠ 34) c1.budget c1 with
  | .ok _ c2 =>
    .ok { type := 83,
          value := { begin := c1.current, end_ := c2.current, is_binary := false },
          count := 0 } c2.advanceIfInside
  | .error e c2 => .error e c2
  | .fault f => .fault f
  | .timeout => .timeout

/-- The exponent of the number case of `readTextProperty` (lines 292-297); the cursor is
after the fraction digits. -/
def readTextExponent (buf : List Byte) (c : Cursor) : Step Unit :=
  match testAt buf c (fun b => b.val = 101 || b.val = 69) with -- 'e' 'E'
  | none => .fault .outOfBounds
  | some false => .ok () c
  | some true =>
    let c1 := c.advance
    match testAt buf c1 (fun b => b.val = 45) with -- '-'
    | none => .fault .outOfBounds
    | some true => skipWhile buf isdigit c1.advance.budget c1.advance
    | some false => skipWhile buf isdigit c1.budget c1

/-- The number case of `readTextProperty` (lines 277-302); `first` is `*cursor.current`. -/
def readTextNumber (buf : List Byte) (first : Byte) (c : Cursor) : Step Property :=
  let c1 := if first.val = 45 then c.advance else c
  match skipWhile buf isdigit c1.budget c1 with
  | .ok _ c2 =>
    match testAt buf c2 (fun b => b.val = 46) with -- '.'
    | none => .fault .outOfBounds
    | some false =>
      .ok { type := 76,
            value := { begin := c.current, end_ := c2.current, is_binary := false },
            count := 0 } c2
    | some true =>
      let c3 := c2.advance
      match skipWhile buf isdigit c3.budget c3 with
      | .ok _ c4 =>
        match readTextExponent buf c4 with
        | .ok _ c5 =>
          .ok { type := 68,
                value := { begin := c.current, end_ := c5.current, is_binary := false },
                count := 0 } c5
        | .error e c5 => .error e c5
        | .fault f => .fault f
        | .timeout => .timeout
      | .error e c4 => .error e c4
      | .fault f => .fault f
      | .timeout => .timeout
  | .error e c2 => .error e c2
  | .fault f => .fault f
  | .timeout => .timeout

/-- The array case of `readTextProperty` (lines 313-338). -/
def readTextArray (buf : List Byte) (c : Cursor) : Step Property :=
  let c1 := c.advance
  match skipWhile buf (fun b => b.val ≠ 58) c1.budget c1 with -- ':'
  | .ok _ c2 =>
    match skipInsignificantWhitespaces buf c2.advanceIfInside with
    | .ok _ c3 =>
      match scanArray buf c3.budget { type := 108, count := 0, is_any := false } c3 with
      | .ok s c4 =>
        .ok { type := s.type,
              value := { begin := c3.current, end_ := c4.current, is_binary := false },
              count := if s.is_any then s.count + 1 else s.count } c4.advanceIfInside
      | .error e c4 => .error e c4
      | .fault f => .fault f
      | .timeout => .timeout
    | .error e c3 => .error e c3
    | .fault f => .fault f
    | .timeout => .timeout
  | .error e c2 => .error e c2
  | .fault f => .fault f
  | .timeout => .timeout

/-- The function `readTextProperty`.  Its first statement loads `*cursor.current` with no
test against `cursor.end`.  In the last case the `assert(false)` is taken as compiled out,
so that `Error("TODO")` is returned. -/
def readTextProperty (buf : List Byte) (c : Cursor) : Step Property :=
  match load buf c c.current with
  | none => .fault .outOfBounds
  | some first =>
    if first.val = 34 then readTextString buf c -- '"'
    else if isdigit first || first.val = 45 then readTextNumber buf first c -- '-'
    else if first.val = 84 || first.val = 89 then -- 'T' 'Y'
      .ok { type := first.val,
            value := { begin := c.current, end_ := c.current + 1, is_binary := false },
            count := 0 } c.advance
    else if first.val = 42 then readTextArray buf c -- '*'
    else .error .todo c

/-- The C function `isalnum` on a byte (the "C" locale). -/
def isalnum (b : Byte) : Bool :=
  isdigit b || (65 ≤ b.val && b.val ≤ 90) || (97 ≤ b.val && b.val ≤ 122)

/-- The function `isTextTokenChar`. -/
def isTextTokenChar (b : Byte) : Bool := isalnum b || b.val = 95

/-- The function `skipLine`. -/
def skipLine (buf : List Byte) (c : Cursor) : Step Unit :=
  match skipWhile buf (fun b => b.val ≠ 10) c.budget c with
  | .ok _ c1 => skipInsignificantWhitespaces buf c1.advanceIfInside
  | .error e c1 => .error e c1
  | .fault f => .fault f
  | .timeout => .timeout

/-- The second loop of `skipWhitespaces`:
`while (cursor.current < cursor.end && *cursor.current == ';') skipLine(cursor);`. -/
def skipComments (buf : List Byte) : Nat → Cursor → Step Unit
  | 0, _ => .timeout
  | fuel + 1, c =>
    match testAt buf c (fun b => b.val = 59) with
    | none => .fault .outOfBounds
    | some true =>
      match skipLine buf c with
      | .ok _ c1 => skipComments buf fuel c1
      | .error e c1 => .error e c1
      | .fault f => .fault f
      | .timeout => .timeout
    | some false => .ok () c

/-- The function `skipWhitespaces`. -/
def skipWhitespaces (buf : List Byte) (c : Cursor) : Step Unit :=
  match skipWhile buf isspace c.budget c with
  | .ok _ c1 => skipComments buf c1.budget c1
  | .error e c1 => .error e c1
  | .fault f => .fault f
  | .timeout => .timeout

/-- The function `readTextToken`. -/
def readTextToken (buf : List Byte) (c : Cursor) : Step DataView :=
  match skipWhile buf isTextTokenChar c.budget c with
  | .ok _ c1 => .ok { begin := c.current, end_ := c1.current, is_binary := true } c1
  | .error e c1 => .error e c1
  | .fault f => .fault f
  | .timeout => .timeout

/-- Lines 363-367 of `readTextElement`: what follows a property in the property loop. -/
def skipAfterProperty (buf : List Byte) (c : Cursor) : Step Unit :=
  match testAt buf c (fun b => b.val = 44) with -- ','
  | none => .fault .outOfBounds
  | some true =>
    match skipWhitespaces buf c.advance with
    | .ok _ c1 => skipInsignificantWhitespaces buf c1
    | .error e c1 => .error e c1
    | .fault f => .fault f
    | .timeout => .timeout
  | some false => skipInsignificantWhitespaces buf c

/-- The property loop of `readTextElement` (lines 357-371). -/
def readTextProperties (buf : List Byte) : Nat → Cursor → Step (List Property)
  | 0, _ => .timeout
  | fuel + 1, c =>
    match testAt buf c (fun b => b.val ≠ 10 && b.val ≠ 123) with -- '\n' '{'
    | none => .fault .outOfBounds
    | some false => .ok [] c
    | some true =>
      match readTextProperty buf c with
      | .ok prop c1 =>
        match skipAfterProperty buf c1 with
        | .ok _ c2 =>
          match readTextProperties buf fuel c2 with
          | .ok rest c3 => .ok (prop :: rest) c3
          | .error e c3 => .error e c3
          | .fault f => .fault f
          | .timeout => .timeout
        | .error e c2 => .error e c2
        | .fault f => .fault f
        | .timeout => .timeout
      | .error e c1 => .error e c1
      | .fault f => .fault f
      | .timeout => .timeout

/-- The child loop of `readTextElement` (lines 377-387), `readElem` being the recursive
call.  The result is the chain hanging from `element.child`. -/
def readTextChildren (buf : List Byte) (readElem : Cursor → Step ElemPtr) :
    Nat → Cursor → Step ElemPtr
  | 0, _ => .timeout
  | fuel + 1, c =>
    match testAt buf c (fun b => b.val ≠ 125) with -- '}'
    | none => .fault .outOfBounds
    | some false => .ok .null c
    | some true =>
      match readElem c with
      | .ok child c1 =>
        match skipWhitespaces buf c1 with
        | .ok _ c2 =>
          match child with
          | .null => .fault .nullDeref
          | .elem id props ch _ =>
            match readTextChildren buf readElem fuel c2 with
            | .ok rest c3 => .ok (.elem id props ch rest) c3
            | .error e c3 => .error e c3
            | .fault f => .fault f
            | .timeout => .timeout
        | .error e c2 => .error e c2
        | .fault f => .fault f
        | .timeout => .timeout
      | .error e c1 => .error e c1
      | .fault f => .fault f
      | .timeout => .timeout

/-- Lines 373-390 of `readTextElement`, after the property loop.  The test
`*cursor.current == '{'` is made with no comparison against `cursor.end`. -/
def readTextBlock (buf : List Byte) (readElem : Cursor → Step ElemPtr) (fuel : Nat)
    (id : DataView) (props : List Property) (c : Cursor) : Step ElemPtr :=
  match load buf c c.current with
  | none => .fault .outOfBounds
  | some b =>
    if b.val = 123 then -- '{'
      match skipWhitespaces buf c.advance with
      | .ok _ c1 =>
        match readTextChildren buf readElem fuel c1 with
        | .ok children c2 => .ok (.elem id props children .null) c2.advanceIfInside
        | .error e c2 => .error e c2
        | .fault f => .fault f
        | .timeout => .timeout
      | .error e c1 => .error e c1
      | .fault f => .fault f
      | .timeout => .timeout
    else .ok (.elem id props .null .null) c

/-- Lines 345-351 of `readTextElement`: the name, the `':'` and the whitespace after it.
The result is the name view, with the cursor on the first property. -/
def readTextName (buf : List Byte) (c : Cursor) : Step DataView :=
  match readTextToken buf c with
  | .ok id c1 =>
    if c1.current = c1.end_ then .error .unexpectedEndOfFile c1
    else
      match load buf c1 c1.current with
      | none => .fault .outOfBounds
      | some b =>
        if b.val ≠ 58 then .error .unexpectedEndOfFile c1 -- ':'
        else
          match skipWhitespaces buf c1.advance with
          | .ok _ c2 =>
            if c2.current = c2.end_ then .error .unexpectedEndOfFile c2
            else .ok id c2
          | .error e c2 => .error e c2
          | .fault f => .fault f
          | .timeout => .timeout
  | .error e c1 => .error e c1
  | .fault f => .fault f
  | .timeout => .timeout

/-- The function `readTextElement`; `fuel` bounds the depth of the recursion and the length
of each child loop. -/
def readTextElement (buf : List Byte) : Nat → Cursor → Step ElemPtr
  | 0, _ => .timeout
  | fuel + 1, c =>
    match readTextName buf c with
    | .ok id c1 =>
      match readTextProperties buf c1.budget c1 with
      | .ok props c2 => readTextBlock buf (readTextElement buf fuel) fuel id props c2
      | .error e c2 => .error e c2
      | .fault f => .fault f
      | .timeout => .timeout
    | .error e c1 => .error e c1
    | .fault f => .fault f
    | .timeout => .timeout

/-- The loop of `tokenizeText`; the result is the chain hanging from `root.child`. -/
def tokenizeTextLoop (buf : List Byte) (elemFuel : Nat) : Nat → Cursor → Step ElemPtr
  | 0, _ => .timeout
  | fuel + 1, c =>
    if c.current < c.end_ then
      match load buf c c.current with
      | none => .fault .outOfBounds
      | some b =>
        if b.val = 59 ∨ b.val = 13 ∨ b.val = 10 then -- ';' '\r' '\n'
          match skipLine buf c with
          | .ok _ c1 => tokenizeTextLoop buf elemFuel fuel c1
          | .error e c1 => .error e c1
          | .fault f => .fault f
          | .timeout => .timeout
        else
          match readTextElement buf elemFuel c with
          | .ok child c1 =>
            match child with
            | .null => .ok .null c1
            | .elem id props ch _ =>
              match tokenizeTextLoop buf elemFuel fuel c1 with
              | .ok rest c2 => .ok (.elem id props ch rest) c2
              | .error e c2 => .error e c2
              | .fault f => .fault f
              | .timeout => .timeout
          | .error e c1 => .error e c1
          | .fault f => .fault f
          | .timeout => .timeout
    else .ok .null c

/-- The function `tokenizeText(data, size)`: `buf` holds the `size` bytes stored at `data`. -/
def tokenizeText (buf : List Byte) (data : Nat) : Step ElemPtr :=
  match tokenizeTextLoop buf (buf.length + 1) (buf.length + 1)
      { current := data, begin := data, end_ := data + buf.length } with
  | .ok chain c => .ok (.elem nullView [] chain .null) c
  | .error e c => .error e c
  | .fault f => .fault f
  | .timeout => .timeout

/-- An object given to `delete`. -/
inductive Freed where
  | element (id : DataView) : Freed
  | property (p : Property) : Freed
deriving DecidableEq, Repr

/-- Modelled from the spec: `delete el.first_property` frees the property list node by node
(the destructor of `Property` is not in the source). -/
def deleteProperties (props : List Property) : List Freed := props.map Freed.property

/-- The loop `do { next = iter.sibling; delete iter; iter = next; } while (iter);` of
`deleteElement`: the objects it frees, in order. -/
def deleteChain : ElemPtr → List Freed
  | .null => []
  | .elem id _ _ sibling => Freed.element id :: deleteChain sibling

/-- The function `deleteElement`: the objects it frees, in order. -/
def deleteElement : ElemPtr → List Freed
  | .null => []
  | .elem id props child sibling =>
    deleteProperties props ++ deleteElement child ++ deleteChain (.elem id props child sibling)

/-- Every element reachable through `child` and `sibling`, with the properties of each. -/
def ElemPtr.owned : ElemPtr → List Freed
  | .null => []
  | .elem id props child sibling =>
    Freed.element id :: (props.map Freed.property ++ child.owned ++ sibling.owned)

/-- Outcome of a call that works on vectors: a value, or an access that is undefined. -/
inductive Result (α : Type) where
  | done (value : α) : Result α
  | fault (f : Fault) : Result α
deriving DecidableEq, Repr

/-- The element `v[i]` of a vector for an `int` index, defined inside the vector only. -/
def elemAt {α : Type} (v : List α) (i : Int) : Option α :=
  if 0 ≤ i then v[i.toNat]? else none

/-- The value of an `int` computation, wrapped to 32 bits (two's complement). -/
def wrap32 (x : Int) : Int := (x + 2 ^ 31) % 2 ^ 32 - 2 ^ 31

/-- Modelled from the spec: the mapping modes of `GeometryImpl::VertexDataMapping`, whose
declaration is not in the source; `OTHER` stands for any other value. -/
inductive VertexDataMapping where
  | BY_POLYGON_VERTEX
  | BY_VERTEX
  | OTHER
deriving DecidableEq, Repr

/-- The loop of `splat` (by polygon vertex) and of `remap`: for each index in turn,
`if (index < size) out[i] = data[index]; else out[i] = T();`.  Vector sizes are taken to fit
an `int`, so that `(int)data.size()` is the size. -/
def gather {α : Type} [Inhabited α] (data : List α) : List Int → Result (List α)
  | [] => .done []
  | index :: rest =>
    if index < (data.length : Int) then
      match elemAt data index with
      | none => .fault .outOfBounds
      | some x =>
        match gather data rest with
        | .done out => .done (x :: out)
        | .fault f => .fault f
    else
      match gather data rest with
      | .done out => .done (default :: out)
      | .fault f => .fault f

/-- The statement `if (idx < 0) idx = -idx - 1;` on an `int`, each operation wrapped to 32
bits (at `idx = INT_MIN` the negation gives `INT_MIN` again and the result is `INT_MAX`). -/
def decodeIndex (idx : Int) : Int :=
  if idx < 0 then wrap32 (wrap32 (-idx) - 1) else idx

/-- The function `splat`; `out` is the vector `*out` before the call and the result is that
vector after it.  The `assert`s are taken as compiled out. -/
def splat {α : Type} [Inhabited α] (out : List α) (mapping : VertexDataMapping)
    (data : List α) (indices : List Int) (original_indices : List Int) : Result (List α) :=
  match mapping with
  | .BY_POLYGON_VERTEX =>
    if indices.isEmpty then
      -- `out.resize(data.size()); memcpy(&(*out)[0], &data[0], ...)`
      if data.isEmpty then .fault .outOfBounds else .done data
    else gather data indices
  | .BY_VERTEX => gather data (original_indices.map decodeIndex)
  | .OTHER => .done out

/-- The function `remap`; `out` is the vector `*out` before the call and the result is that
vector after it. -/
def remap {α : Type} [Inhabited α] (out : List α) (map : List Int) : Result (List α) :=
  if out.isEmpty then .done out else gather out map

/-- The loop of `getTriCountFromPoly` on the entries from `indices[*idx + 1 + count]` on:
`while (indices[...] >= 0) ++count;`.  Reading past the last entry is undefined. -/
def countCorners : List Int → Int → Result Int
  | [], _ => .fault .outOfBounds
  | x :: rest, count => if x ≥ 0 then countCorners rest (count + 1) else .done count

/-- The function `getTriCountFromPoly`: the value returned and the new value of `*idx`. -/
def getTriCountFromPoly (indices : List Int) (idx : Int) : Result (Int × Int) :=
  if idx + 2 < 0 then .fault .outOfBounds
  else
    match countCorners (indices.drop (idx + 2).toNat) 1 with
    | .done count => .done (count, idx + 2 + count)
    | .fault f => .fault f

/-- The number of elements reachable from an `Element*` through `child` and `sibling`. -/
def ElemPtr.size : ElemPtr → Nat
  | .null => 0
  | .elem _ _ child sibling => 1 + child.size + sibling.size

/-- The name views in pre-order: an element, then its child chain with all descendants,
then its sibling. -/
def ElemPtr.preorder : ElemPtr → List DataView
  | .null => []
  | .elem id _ child sibling => id :: (child.preorder ++ sibling.preorder)

/-- The child loop of `readElement` with a counter: next to the chain, the number of calls of
`readElement` made for it, nested ones included, that read a non-zero end offset. -/
def countedChildren (readElem : Cursor → Step (ElemPtr × Nat)) (limit : Int) :
    Nat → Cursor → Step (ElemPtr × Nat)
  | 0, _ => .timeout
  | fuel + 1, c =>
    if (c.current : Int) - (c.begin : Int) < limit then
      match readElem c with
      | .ok (child, n) c1 =>
        match child with
        | .null => .fault .nullDeref
        | .elem id props ch _ =>
          match countedChildren readElem limit fuel c1 with
          | .ok (rest, m) c2 => .ok (.elem id props ch rest, n + m) c2
          | .error e c2 => .error e c2
          | .fault f => .fault f
          | .timeout => .timeout
      | .error e c1 => .error e c1
      | .fault f => .fault f
      | .timeout => .timeout
    else .ok (.null, 0) c

/-- The function `readElement` with a counter: next to its result, the number of calls of
`readElement`, this one and the nested ones, that read a non-zero end offset. -/
def countedElement (buf : List Byte) (version : Nat) : Nat → Cursor → Step (ElemPtr × Nat)
  | 0, _ => .timeout
  | fuel + 1, c =>
    match readElementHead buf version c with
    | .ok none c1 => .ok (.null, 0) c1
    | .ok (some h) c1 =>
      if (c1.current : Int) - (c1.begin : Int) ≥ toPtrdiff h.end_offset then
        .ok (.elem h.id h.first_property .null .null, 1) c1
      else
        match countedChildren (countedElement buf version fuel)
            (toPtrdiff h.end_offset - (blockSentinelLength version : Int)) fuel c1 with
        | .ok (children, n) c2 =>
          if c2.current + blockSentinelLength version > c2.end_ then
            .error .readingPastTheEnd c2
          else
            .ok (.elem h.id h.first_property children .null, 1 + n)
              { c2 with current := c2.current + blockSentinelLength version }
        | .error e c2 => .error e c2
        | .fault f => .fault f
        | .timeout => .timeout
    | .error e c1 => .error e c1
    | .fault f => .fault f
    | .timeout => .timeout

/-- The loop of `tokenize` with the counter of `countedElement`. -/
def countedLoop (buf : List Byte) (version : Nat) (elemFuel : Nat) :
    Nat → Cursor → Step (ElemPtr × Nat)
  | 0, _ => .timeout
  | fuel + 1, c =>
    match countedElement buf version elemFuel c with
    | .ok (child, n) c1 =>
      match child with
      | .null => .ok (.null, n) c1
      | .elem id props ch _ =>
        match countedLoop buf version elemFuel fuel c1 with
        | .ok (rest, m) c2 => .ok (.elem id props ch rest, n + m) c2
        | .error e c2 => .error e c2
        | .fault f => .fault f
        | .timeout => .timeout
    | .error e c1 => .error e c1
    | .fault f => .fault f
    | .timeout => .timeout

/-- The function `tokenize` with the counter of `countedElement`: the root, and the number of
calls of `readElement` that read a non-zero end offset. -/
def countedTokenize (buf : List Byte) (data : Nat) : Step (ElemPtr × Nat) :=
  match loadLE buf (startCursor buf data) (data + versionOffset) 4 with
  | none => .fault .outOfBounds
  | some version =>
    match countedLoop buf version (buf.length + 2) (buf.length + 2)
        (startCursor buf data) with
    | .ok (chain, n) c => .ok (.elem nullView [] chain .null, n) c
    | .error e c => .error e c
    | .fault f => .fault f
    | .timeout => .timeout

/-- The type tags of the spec: `S Y C I F D L R b f d l i`. -/
def propertyTags : List Nat := [83, 89, 67, 73, 70, 68, 76, 82, 98, 102, 100, 108, 105]

/-- The spec's table of the bytes a property takes after its tag byte: `2 1 4 4 8 8` for
`Y C I F D L`, `4 +` the declared length for `S R`, and `12 +` the declared compressed
length for `b f d l i`.  The lengths are the 32-bit fields at `tag + 1` and `tag + 9`. -/
def declaredSkip (buf : List Byte) (c : Cursor) (tag : Nat) : Option Nat :=
  if tag = 89 then some 2
  else if tag = 67 then some 1
  else if tag = 73 ∨ tag = 70 then some 4
  else if tag = 68 ∨ tag = 76 then some 8
  else if tag = 83 ∨ tag = 82 then (loadLE buf c (c.current + 1) 4).map (4 + ·)
  else if tag = 98 ∨ tag = 102 ∨ tag = 100 ∨ tag = 108 ∨ tag = 105 then
    (loadLE buf c (c.current + 9) 4).map (12 + ·)
  else none

/-- The spec's "read exactly `n` properties, in encounter order": `n` successive calls of
`readProperty`, each from the cursor the one before left. -/
def decodeProperties (buf : List Byte) : Nat → Cursor → Option (List Property × Cursor)
  | 0, c => some ([], c)
  | n + 1, c =>
    match readProperty buf c with
    | .ok p c1 => (decodeProperties buf n c1).map fun r => (p :: r.1, r.2)
    | _ => none

/-- The width `readElementOffset` reads for a `uint32 version` of `readElement`. -/
def offsetWidth (version : Nat) : Nat :=
  if toUint16 version ≥ 7500 then 8 else 4

/-- The cursor `c2` is the cursor `c` moved forward over the same buffer. -/
def Cursor.Ahead (c c2 : Cursor) : Prop :=
  c2.begin = c.begin ∧ c2.end_ = c.end_ ∧ c.current ≤ c2.current

instance (c c2 : Cursor) : Decidable (c.Ahead c2) := by
  unfold Cursor.Ahead; infer_instance

/-- The views `l` start at strictly increasing addresses, all in `(lo, hi]`. -/
def Within (lo hi : Nat) (l : List DataView) : Prop :=
  l.Pairwise (fun a b => a.begin < b.begin) ∧ ∀ v ∈ l, lo < v.begin ∧ v.begin ≤ hi

instance (lo hi : Nat) (l : List DataView) : Decidable (Within lo hi l) := by
  unfold Within; infer_instance

/-- An `Element*` as `readElement` returns it: null, or an element with no sibling yet. -/
def ElemPtr.Single : ElemPtr → Prop
  | .null => True
  | .elem _ _ _ sibling => sibling = .null

instance (e : ElemPtr) : Decidable e.Single := by
  cases e <;> unfold ElemPtr.Single <;> infer_instance

/-- The byte at address `p` is the byte `x` (false outside the buffer). -/
def byteIs (buf : List Byte) (c : Cursor) (p : Nat) (x : Nat) : Bool :=
  match load buf c p with
  | some b => b.val = x
  | none => false

/-- From the spec's words (a maximal run): every byte of `[p, q)` satisfies `f`, and `q` is
the buffer end or the address of a byte that does not. -/
def MaximalRun (buf : List Byte) (c : Cursor) (f : Byte → Bool) (p q : Nat) : Prop :=
  p ≤ q ∧ q ≤ c.end_ ∧ (∀ k, k < q → p ≤ k → (load buf c k).map f = some true) ∧
    (q < c.end_ → (load buf c q).map f = some false)

instance (buf : List Byte) (c : Cursor) (f : Byte → Bool) (p q : Nat) :
    Decidable (MaximalRun buf c f p q) := by
  unfold MaximalRun; infer_instance

/-- A file of version 7400 with one element `A` that has one child, a second top-level
element, and the terminator. -/
def sampleNested : List Byte :=
  [0, 0, 0, 0, 0, 0, 0, 0, 0, 0, 0, 0, 0, 0, 0, 0, 0, 0, 0, 0, 0, 0, 0, 232, 28, 0, 0,
   67, 0, 0, 0, 0, 0, 0, 0, 0, 0, 0, 0, 1, 65,
   54, 0, 0, 0, 0, 0, 0, 0, 0, 0, 0, 0, 0,
   0, 0, 0, 0, 0, 0, 0, 0, 0, 0, 0, 0, 0,
   80, 0, 0, 0, 0, 0, 0, 0, 0, 0, 0, 0, 0,
   0, 0, 0, 0]

/-- A file of version 7400 with one element that has two properties `C`, and the
terminator. -/
def sampleTwoBools : List Byte :=
  [0, 0, 0, 0, 0, 0, 0, 0, 0, 0, 0, 0, 0, 0, 0, 0, 0, 0, 0, 0, 0, 0, 0, 232, 28, 0, 0,
   44, 0, 0, 0, 2, 0, 0, 0, 4, 0, 0, 0, 0,
   67, 1, 67, 1,
   0, 0, 0, 0]

/-- A file of version 7400 whose one top-level element (end offset 70) has, as the first
record of its child region, a zero end offset; a child record (end offset 57), the 13 bytes
of padding and the top-level terminator follow. -/
def sampleNullChild : List Byte :=
  [0, 0, 0, 0, 0, 0, 0, 0, 0, 0, 0, 0, 0, 0, 0, 0, 0, 0, 0, 0, 0, 0, 0, 232, 28, 0, 0,
   70, 0, 0, 0, 0, 0, 0, 0, 0, 0, 0, 0, 0,
   0, 0, 0, 0,
   57, 0, 0, 0, 0, 0, 0, 0, 0, 0, 0, 0, 0,
   0, 0, 0, 0, 0, 0, 0, 0, 0, 0, 0, 0, 0,
   0, 0, 0, 0]

/-- A file whose header holds version 65536, followed by four zero bytes. -/
def sampleVersion65536 : List Byte :=
  [0, 0, 0, 0, 0, 0, 0, 0, 0, 0, 0, 0, 0, 0, 0, 0, 0, 0, 0, 0, 0, 0, 0, 0, 0, 1, 0,
   0, 0, 0, 0]

/-- The sample text `1.5e+3`. -/
def samplePlusExponent : List Byte := [49, 46, 53, 101, 43, 51]

/-- The sample text `-12.5E-3,`. -/
def sampleMinusExponent : List Byte := [45, 49, 50, 46, 53, 69, 45, 51, 44]

/-- The cursor `c` over a buffer that ends later, at `e`. -/
def Cursor.withEnd (c : Cursor) (e : Nat) : Cursor := { c with end_ := e }

/-- The invariant of the spec: `begin <= current <= end`. -/
def Cursor.Inv (c : Cursor) : Prop := c.begin ≤ c.current ∧ c.current ≤ c.end_

instance (c : Cursor) : Decidable c.Inv := by
  unfold Cursor.Inv; infer_instance

/-- From the spec's words: `decode(v) = v` if `v >= 0`, else `-v - 1`. -/
def decode (v : Int) : Int := if v ≥ 0 then v else -v - 1

/-- From the spec's words: `out[i] = data[index]` when `index` is in range for `data`, and the
default value otherwise. -/
def pick {α : Type} [Inhabited α] (data : List α) (index : Int) : α :=
  if 0 ≤ index ∧ index < (data.length : Int) then (data[index.toNat]?).getD default
  else default

/-- The tree used against claim C16: an element `A` whose sibling `B` has one property and
one child `C`. -/
def sampleSiblings : ElemPtr :=
  .elem ⟨1, 2, true⟩ [] .null
    (.elem ⟨3, 4, true⟩ [⟨67, ⟨5, 6, true⟩, 0⟩] (.elem ⟨7, 8, true⟩ [] .null .null) .null)

/-- The text `A: 1`, with no newline after it. -/
def sampleNoNewline : List Byte := [65, 58, 32, 49]

/-- The cursor `c` is over the buffer `buf`, with `begin <= current <= end`. -/
def Cursor.Valid (buf : List Byte) (c : Cursor) : Prop :=
  c.end_ ≤ c.begin + buf.length ∧ c.begin ≤ c.current ∧ c.current ≤ c.end_

instance (buf : List Byte) (c : Cursor) : Decidable (c.Valid buf) := by
  unfold Cursor.Valid; infer_instance

/-- The text `;`, two newlines, `A`: a comment line followed by an empty line. -/
def sampleCommentThenEmptyLine : List Byte := [59, 10, 10, 65]

/-- The name view of every element reachable from an `Element*`, and the payload view of
every property of each. -/
def ElemPtr.views : ElemPtr → List DataView
  | .null => []
  | .elem id props child sibling =>
    id :: (props.map (fun p => p.value) ++ child.views ++ sibling.views)

/-- Every view of `l` is well-formed and lies in `[lo, hi]`:
`lo <= view.begin <= view.end <= hi`. -/
def Inside (lo hi : Nat) (l : List DataView) : Prop :=
  ∀ v ∈ l, lo ≤ v.begin ∧ v.begin ≤ v.end_ ∧ v.end_ ≤ hi

instance (lo hi : Nat) (l : List DataView) : Decidable (Inside lo hi l) := by
  unfold Inside; infer_instance

/-- The call went through: it failed with an error, made an undefined access, or returned
with the cursor moved to `lo` or further, inside the buffer of `c`.  The fuel of the
embedding did not run out. -/
def Step.Returns {α : Type} (r : Step α) (c : Cursor) (lo : Nat) : Prop :=
  match r with
  | .ok _ c2 => c2.begin = c.begin ∧ c2.end_ = c.end_ ∧ lo ≤ c2.current ∧ c2.current ≤ c.end_
  | .error _ _ => True
  | .fault _ => True
  | .timeout => False

/-- The bytes of the buffer at the addresses `[p, q)`. -/
def bytesBetween (buf : List Byte) (c : Cursor) (p q : Nat) : List Byte :=
  (buf.drop (p - c.begin)).take (q - p)

/-- From the spec's words: the comma-separated entries of a span of bytes (the commas
themselves left out); a span with `n` commas has `n + 1` entries. -/
def splitAtCommas : List Byte → List (List Byte)
  | [] => [[]]
  | b :: rest =>
    if b.val = 44 then [] :: splitAtCommas rest
    else
      match splitAtCommas rest with
      | [] => [[b]]
      | seg :: segs => (b :: seg) :: segs

/-- From the spec's words: an entry that contains at least one non-whitespace character. -/
def nonBlank (seg : List Byte) : Bool := seg.any (fun b => !isspace b)

/-- From the spec's words: the number of comma-separated entries of a span that contain at
least one non-whitespace character. -/
def countEntries (span : List Byte) : Nat := (splitAtCommas span).countP nonBlank

/-- From the spec's words: a `'.'` occurs somewhere in the span. -/
def hasDot (span : List Byte) : Bool := span.any (fun b => b.val = 46)

/-- The text `*3 { a: 1,2, ,3.0 } x`: an array with an entry of whitespace only. -/
def sampleArray : List Byte :=
  [42, 51, 32, 123, 32, 97, 58, 32, 49, 44, 50, 44, 32, 44, 51, 46, 48, 32, 125, 32, 120]

/-- From the spec's words: from address `p` on, comment lines are passed one after another
up to `q`, which is not on a `';'`.  Each pair `(e, s)` of `lines` is one comment line: it
begins with a `';'`, runs to `e`, the end of its line (the first newline, or the buffer
end), and `s` is where the next line begins, after that newline and the insignificant
whitespace (whitespace other than a newline) that follows it. -/
def CommentLines (buf : List Byte) (c : Cursor) : List (Nat × Nat) → Nat → Nat → Prop
  | [], p, q => q = p ∧ byteIs buf c p 59 = false
  | (e, s) :: rest, p, q =>
    byteIs buf c p 59 = true ∧
    MaximalRun buf c (fun b => b.val ≠ 10) p e ∧
    MaximalRun buf c (fun b => isspace b && b.val ≠ 10) (if e < c.end_ then e + 1 else e) s ∧
    CommentLines buf c rest s q

instance (buf : List Byte) (c : Cursor) (lines : List (Nat × Nat)) (p q : Nat) :
    Decidable (CommentLines buf c lines p q) := by
  induction lines generalizing p with
  | nil => unfold CommentLines; infer_instance
  | cons l rest ih =>
    obtain ⟨e, s⟩ := l
    unfold CommentLines
    have := ih s
    infer_instance

/-! ## Theorems -/

@[simp] theorem load_setCurrent (buf : List Byte) (c : Cursor) (x p : Nat) :
    load buf { c with current := x } p = load buf c p := rfl

@[simp] theorem loadLE_setCurrent (buf : List Byte) (c : Cursor) (x p n : Nat) :
    loadLE buf { c with current := x } p n = loadLE buf c p n := by
  induction n generalizing p with
  | zero => rfl
  | succ n ih => simp only [loadLE, load_setCurrent, ih]

theorem read_ok {buf : List Byte} {n : Nat} {c c1 : Cursor} {v : Nat}
    (h : read buf n c = .ok v c1) :
    c.current + n ≤ c.end_ ∧ loadLE buf c c.current n = some v ∧
      c1 = { c with current := c.current + n } := by
  unfold read at h
  split at h
  · cases h
  · split at h
    · cases h
    · rename_i hle value hv
      cases h
      exact ⟨by omega, hv, rfl⟩

theorem read_error {buf : List Byte} {n : Nat} {c c1 : Cursor} {e : ErrorMsg}
    (h : read buf n c = .error e c1) :
    c.end_ < c.current + n ∧ e = .readingPastTheEnd ∧ c1 = c := by
  unfold read at h
  split at h
  · cases h; exact ⟨by omega, rfl, rfl⟩
  · split at h <;> cases h

theorem read_ne_timeout (buf : List Byte) (n : Nat) (c : Cursor) :
    read buf n c ≠ .timeout := by
  unfold read
  split
  · simp
  · split <;> simp

theorem read_eq_ok {buf : List Byte} {n : Nat} {c : Cursor} {v : Nat}
    (hfit : c.current + n ≤ c.end_) (hv : loadLE buf c c.current n = some v) :
    read buf n c = .ok v { c with current := c.current + n } := by
  unfold read
  rw [if_neg (by omega), hv]

/-- Claim C6.  When the length field can be read (1 byte for `readShortString`, 4 bytes
little-endian for `readLongString`) with value `len`, the call fails with the
read-past-end message exactly when `len` exceeds the bytes left after the field; otherwise
it returns the view that begins right after the field and is `len` bytes long, and leaves
the cursor at the end of that view. -/
theorem readString_spec (buf : List Byte) (c : Cursor) (len : Nat) :
    (c.current + 1 ≤ c.end_ → loadLE buf c c.current 1 = some len →
      (readShortString buf c = .error .readingPastTheEnd { c with current := c.current + 1 }
          ↔ c.end_ - (c.current + 1) < len) ∧
      (len ≤ c.end_ - (c.current + 1) →
        readShortString buf c =
          .ok { begin := c.current + 1, end_ := c.current + 1 + len, is_binary := true }
            { c with current := c.current + 1 + len })) ∧
    (c.current + 4 ≤ c.end_ → loadLE buf c c.current 4 = some len →
      (readLongString buf c = .error .readingPastTheEnd { c with current := c.current + 4 }
          ↔ c.end_ - (c.current + 4) < len) ∧
      (len ≤ c.end_ - (c.current + 4) →
        readLongString buf c =
          .ok { begin := c.current + 4, end_ := c.current + 4 + len, is_binary := true }
            { c with current := c.current + 4 + len })) := by
  constructor
  · intro hfit hv
    have hr := read_eq_ok hfit hv
    unfold readShortString
    rw [hr]
    by_cases hlen : c.end_ - (c.current + 1) < len
    · have : c.current + 1 + len > c.end_ := by omega
      simp [this, hlen]
    · have : ¬ c.current + 1 + len > c.end_ := by omega
      simp [this, hlen]
  · intro hfit hv
    have hr := read_eq_ok hfit hv
    unfold readLongString
    rw [hr]
    by_cases hlen : c.end_ - (c.current + 4) < len
    · have : c.current + 4 + len > c.end_ := by omega
      simp [this, hlen]
    · have : ¬ c.current + 4 + len > c.end_ := by omega
      simp [this, hlen]

theorem readString_spec_witness :
    readShortString [2, 97, 98] ⟨0, 0, 3⟩ = .ok ⟨1, 3, true⟩ ⟨3, 0, 3⟩ ∧
    readLongString [9, 0, 0, 0, 97] ⟨0, 0, 5⟩ = .error .readingPastTheEnd ⟨4, 0, 5⟩ :=
  ⟨((readString_spec [2, 97, 98] ⟨0, 0, 3⟩ 2).1 (by decide) (by decide)).2 (by decide),
   ((readString_spec [9, 0, 0, 0, 97] ⟨0, 0, 5⟩ 9).2 (by decide) (by decide)).1.2
     (by decide)⟩

/-- What a successful `readLongString` has done. -/
theorem readLongString_ok {buf : List Byte} {c c2 : Cursor} {v : DataView}
    (h : readLongString buf c = .ok v c2) :
    ∃ len, loadLE buf c c.current 4 = some len ∧ c.current + 4 + len ≤ c.end_ ∧
      v = { begin := c.current + 4, end_ := c.current + 4 + len, is_binary := true } ∧
      c2 = { c with current := c.current + 4 + len } := by
  unfold readLongString at h
  split at h
  · rename_i len c1 hr
    obtain ⟨_, hv, rfl⟩ := read_ok hr
    split at h
    · cases h
    · cases h
      exact ⟨len, hv, by simp at *; omega, rfl, rfl⟩
  all_goals cases h

theorem skipFixed_ok {t n : Nat} {c c2 : Cursor} {p : Property}
    (h : skipFixed t n c = .ok p c2) :
    p = { type := t, value := { begin := c.current, end_ := c.current + n, is_binary := true },
          count := 0 } ∧ c2 = { c with current := c.current + n } := by
  unfold skipFixed finishProperty at h
  cases h
  exact ⟨rfl, rfl⟩

theorem readRaw_ok {buf : List Byte} {t : Nat} {c c2 : Cursor} {p : Property}
    (h : readRaw buf t c = .ok p c2) :
    ∃ len, loadLE buf c c.current 4 = some len ∧ c.current + 4 + len ≤ c.end_ ∧
      p = { type := t,
            value := { begin := c.current, end_ := c.current + 4 + len, is_binary := true },
            count := 0 } ∧
      c2 = { c with current := c.current + 4 + len } := by
  unfold readRaw at h
  split at h
  · rename_i len c1 hr
    obtain ⟨_, hv, rfl⟩ := read_ok hr
    split at h
    · cases h
    · unfold finishProperty at h
      cases h
      exact ⟨len, hv, by simp at *; omega, rfl, rfl⟩
  all_goals cases h

theorem readArrayBlock_ok {buf : List Byte} {t : Nat} {c c2 : Cursor} {p : Property}
    (h : readArrayBlock buf t c = .ok p c2) :
    ∃ len, loadLE buf c (c.current + 8) 4 = some len ∧ c.current + 12 + len ≤ c.end_ ∧
      p = { type := t,
            value := { begin := c.current, end_ := c.current + 12 + len, is_binary := true },
            count := 0 } ∧
      c2 = { c with current := c.current + 12 + len } := by
  unfold readArrayBlock at h
  cases h1 : read buf 4 c with
  | fault f => simp [h1] at h
  | timeout => simp [h1] at h
  | error e c1 =>
    obtain ⟨hlt, -, rfl⟩ := read_error h1
    simp only [h1, Step.cursorD] at h
    simp [h1] at h
  | ok v1 c1 =>
    obtain ⟨_, _, rfl⟩ := read_ok h1
    simp only [h1, Step.cursorD] at h
    cases h2 : read buf 4 { c with current := c.current + 4 } with
    | fault f => simp [h2] at h
    | timeout => simp [h2] at h
    | error e c2 =>
      obtain ⟨hlt, -, rfl⟩ := read_error h2
      simp only [h2, Step.cursorD] at h
      simp [h2] at h
    | ok v2 c2' =>
      obtain ⟨_, _, rfl⟩ := read_ok h2
      simp only [h2, Step.cursorD] at h
      cases h3 : read buf 4 { c with current := c.current + 4 + 4 } with
      | fault f => simp [h3] at h
      | timeout => simp [h3] at h
      | error e c3 => simp [h3] at h
      | ok v3 c3 =>
        obtain ⟨_, hv3, rfl⟩ := read_ok h3
        simp only [h3] at h
        split at h
        · cases h
        · unfold finishProperty at h
          cases h
          refine ⟨v3, by simpa using hv3, by simp at *; omega, ?_, ?_⟩ <;> simp [Nat.add_assoc]

/-- Everything a successful `readProperty` has done. -/
theorem readProperty_ok {buf : List Byte} {c c2 : Cursor} {p : Property}
    (h : readProperty buf c = .ok p c2) :
    ∃ tag : Byte, ∃ n : Nat, load buf c c.current = some tag ∧ tag.val ∈ propertyTags ∧
      p.type = tag.val ∧ declaredSkip buf c tag.val = some n ∧
      c2 = { c with current := c.current + 1 + n } ∧
      p.value.begin = (if tag.val = 83 then c.current + 5 else c.current + 1) ∧
      p.value.end_ = c.current + 1 + n ∧ p.value.is_binary = true ∧ p.count = 0 := by
  unfold readProperty at h
  split at h
  · cases h
  · split at h
    · cases h
    · rename_i hne tag htag
      refine ⟨tag, ?_⟩
      simp only at h
      split at h
      · rename_i ht
        split at h
        · rename_i val c3 hls
          obtain ⟨len, hv, hle, rfl, rfl⟩ := readLongString_ok hls
          cases h
          refine ⟨4 + len, htag, by simp [ht, propertyTags], by simp [ht], ?_, ?_, ?_, ?_, rfl, rfl⟩
          · simp only [ht, declaredSkip]; simpa using hv
          · simp only [Cursor.mk.injEq, and_true]; omega
          · simp [ht]
          · simp only; omega
        all_goals cases h
      all_goals
        rename_i ht
        first
        | (obtain ⟨rfl, rfl⟩ := skipFixed_ok h
           exact ⟨_, htag, by simp [ht, propertyTags], by simp [ht], by
             simp only [ht, declaredSkip]; rfl, rfl, by simp [ht], rfl, rfl, rfl⟩)
        | (obtain ⟨len, hv, hle, rfl, rfl⟩ := readRaw_ok h
           refine ⟨4 + len, htag, by simp [ht, propertyTags], by simp [ht], ?_, ?_, ?_, ?_, rfl, rfl⟩
           · simp only [ht, declaredSkip]; simpa using hv
           · simp only [Cursor.mk.injEq, and_true]; omega
           · simp [ht]
           · simp only; omega)
        | (obtain ⟨len, hv, hle, rfl, rfl⟩ := readArrayBlock_ok h
           refine ⟨12 + len, htag, by simp [ht, propertyTags], by simp [ht], ?_, ?_, ?_, ?_, rfl, rfl⟩
           · simp only [ht, declaredSkip]; simpa [Nat.add_assoc] using hv
           · simp only [Cursor.mk.injEq, and_true]; omega
           · simp [ht]
           · simp only; omega)
        | cases h


theorem readProperties_ok_of_lt {buf : List Byte} {count : Nat} (hc : count < 2 ^ 32) :
    ∀ (fuel i : Nat) (c c2 : Cursor) (ps : List Property), i ≤ count →
      readProperties buf count fuel i c = .ok ps c2 →
      decodeProperties buf (count - i) c = some (ps, c2) := by
  intro fuel
  induction fuel with
  | zero => intro i c c2 ps _ h; simp [readProperties] at h
  | succ fuel ih =>
    intro i c c2 ps hi h
    unfold readProperties at h
    split at h
    · rename_i hlt
      split at h
      · rename_i prop c1 hp
        split at h
        · rename_i rest c3 hrest
          cases h
          have hmod : (i + 1) % 2 ^ 32 = i + 1 := Nat.mod_eq_of_lt (by omega)
          rw [hmod] at hrest
          have := ih (i + 1) c1 c2 rest (by omega) hrest
          have hs : count - i = (count - (i + 1)) + 1 := by omega
          rw [hs, decodeProperties, hp]
          simp only [this]
          rfl
        all_goals cases h
      all_goals cases h
    · cases h
      have : count - i = 0 := by omega
      rw [this]; rfl

theorem readProperties_wrap {buf : List Byte} {count : Nat} (hc : 2 ^ 32 ≤ count) :
    ∀ (fuel i : Nat) (c c2 : Cursor) (ps : List Property), i < 2 ^ 32 →
      readProperties buf count fuel i c ≠ .ok ps c2 := by
  intro fuel
  induction fuel with
  | zero => intro i c c2 ps _ h; simp [readProperties] at h
  | succ fuel ih =>
    intro i c c2 ps hi h
    unfold readProperties at h
    rw [if_pos (by omega)] at h
    split at h
    · rename_i prop c1 hp
      split at h
      · rename_i rest c3 hrest
        exact ih _ _ _ _ (Nat.mod_lt _ (by norm_num)) hrest
      all_goals cases h
    all_goals cases h

theorem decodeProperties_length {buf : List Byte} :
    ∀ (n : Nat) (c c2 : Cursor) (ps : List Property),
      decodeProperties buf n c = some (ps, c2) → ps.length = n := by
  intro n
  induction n with
  | zero => intro c c2 ps h; simp [decodeProperties] at h; simp [h.1.symm]
  | succ n ih =>
    intro c c2 ps h
    unfold decodeProperties at h
    split at h
    · rename_i p c1 hp
      cases hd : decodeProperties buf n c1 with
      | none => simp [hd] at h
      | some r =>
        obtain ⟨l, c3⟩ := r
        simp [hd] at h
        obtain ⟨rfl, rfl⟩ := h
        simp [ih _ _ _ hd]
    · cases h


theorem readElementOffset_eq (buf : List Byte) (c : Cursor) (version : Nat) :
    readElementOffset buf c (toUint16 version) = read buf (offsetWidth version) c := by
  unfold readElementOffset offsetWidth
  split <;> rfl

theorem offsetWidth_pos (version : Nat) : 4 ≤ offsetWidth version := by
  unfold offsetWidth; split <;> omega

/-- What a successful `readShortString` has done. -/
theorem readShortString_ok {buf : List Byte} {c c2 : Cursor} {v : DataView}
    (h : readShortString buf c = .ok v c2) :
    ∃ len, loadLE buf c c.current 1 = some len ∧ c.current + 1 + len ≤ c.end_ ∧
      v = { begin := c.current + 1, end_ := c.current + 1 + len, is_binary := true } ∧
      c2 = { c with current := c.current + 1 + len } := by
  unfold readShortString at h
  split at h
  · rename_i len c1 hr
    obtain ⟨_, hv, rfl⟩ := read_ok hr
    split at h
    · cases h
    · cases h
      exact ⟨len, hv, by simp at *; omega, rfl, rfl⟩
  all_goals cases h

/-- What `readElement` has read when it has a terminator in hand. -/
theorem readElementHead_none {buf : List Byte} {version : Nat} {c c1 : Cursor}
    (h : readElementHead buf version c = .ok none c1) :
    loadLE buf c c.current (offsetWidth version) = some 0 ∧
      c.current + offsetWidth version ≤ c.end_ ∧
      c1 = { c with current := c.current + offsetWidth version } := by
  unfold readElementHead at h
  rw [readElementOffset_eq] at h
  cases h1 : read buf (offsetWidth version) c with
  | fault f => simp [h1] at h
  | timeout => simp [h1] at h
  | error e c1 => simp [h1] at h
  | ok v1 c1' =>
    obtain ⟨hle, hv, rfl⟩ := read_ok h1
    simp only [h1] at h
    split at h
    · rename_i hz
      cases h
      exact ⟨hz ▸ hv, hle, rfl⟩
    · exfalso
      revert h
      simp only [readElementOffset_eq]
      split
      · simp
      · simp
      · split
        · simp
        · simp
        · simp
        · split
          · split
            · split <;> simp
            · simp
            · simp
            · simp
          · simp

/-- What `readElement` has read when it reaches its line 197 with an element in hand. -/
theorem readElementHead_some {buf : List Byte} {version : Nat} {c c5 : Cursor}
    {h : ElementHead} (hh : readElementHead buf version c = .ok (some h) c5) :
    loadLE buf c c.current (offsetWidth version) = some h.end_offset ∧ h.end_offset ≠ 0 ∧
      loadLE buf c (c.current + offsetWidth version) (offsetWidth version)
        = some h.prop_count ∧
      c.current + 3 * offsetWidth version + 1 ≤ h.id.begin ∧
      h.id.begin ≤ h.id.end_ ∧ h.id.end_ ≤ c.end_ ∧
      ∃ fuel, readProperties buf h.prop_count fuel 0 { c with current := h.id.end_ }
        = .ok h.first_property c5 := by
  unfold readElementHead at hh
  rw [readElementOffset_eq] at hh
  cases h1 : read buf (offsetWidth version) c with
  | fault f => simp [h1] at hh
  | timeout => simp [h1] at hh
  | error e c1 => simp [h1] at hh
  | ok v1 c1' =>
    obtain ⟨hle, hv, rfl⟩ := read_ok h1
    simp only [h1] at hh
    split at hh
    · cases hh
    · rename_i hnz
      simp only [readElementOffset_eq] at hh
      cases h2 : read buf (offsetWidth version) { c with current := c.current + offsetWidth version } with
      | fault f => simp [h2] at hh
      | timeout => simp [h2] at hh
      | error e c2 =>
        obtain ⟨hlt, -, rfl⟩ := read_error h2
        simp only [h2, Step.cursorD] at hh
        simp [h2] at hh
      | ok v2 c2' =>
        obtain ⟨hle2, hv2, rfl⟩ := read_ok h2
        simp only [h2, Step.cursorD] at hh
        cases h3 : read buf (offsetWidth version)
            { c with current := c.current + offsetWidth version + offsetWidth version } with
        | fault f => simp [h3] at hh
        | timeout => simp [h3] at hh
        | error e c3 => simp [h3] at hh
        | ok v3 c3' =>
          obtain ⟨hle3, hv3, rfl⟩ := read_ok h3
          simp only [h3] at hh
          split at hh
          · rename_i id c4 hs
            obtain ⟨len, hl, hlen, rfl, rfl⟩ := readShortString_ok hs
            split at hh
            · rename_i props c5' hps
              cases hh
              simp only at hle hle2 hle3 hlen hv2 ⊢
              refine ⟨hv, hnz, by simpa using hv2, by omega, by omega, by omega, _, hps⟩
            all_goals cases hh
          all_goals cases hh

/-- The ways `readElement` returns a value. -/
theorem readElement_ok {buf : List Byte} {version fuel : Nat} {c c2 : Cursor} {e : ElemPtr}
    (h : readElement buf version (fuel + 1) c = .ok e c2) :
    (e = .null ∧ readElementHead buf version c = .ok none c2) ∨
    ∃ hd c1, readElementHead buf version c = .ok (some hd) c1 ∧
      (((c1.current : Int) - (c1.begin : Int) ≥ toPtrdiff hd.end_offset ∧
          e = .elem hd.id hd.first_property .null .null ∧ c2 = c1) ∨
       (¬ ((c1.current : Int) - (c1.begin : Int) ≥ toPtrdiff hd.end_offset) ∧
          ∃ children c3,
            readChildren (readElement buf version fuel)
              (toPtrdiff hd.end_offset - (blockSentinelLength version : Int)) fuel c1
              = .ok children c3 ∧
            c3.current + blockSentinelLength version ≤ c3.end_ ∧
            e = .elem hd.id hd.first_property children .null ∧
            c2 = { c3 with current := c3.current + blockSentinelLength version })) := by
  unfold readElement at h
  split at h
  · rename_i c1 hh
    cases h
    exact Or.inl ⟨rfl, hh⟩
  · rename_i hd c1 hh
    refine Or.inr ⟨hd, c1, hh, ?_⟩
    split at h
    · rename_i hge
      cases h
      exact Or.inl ⟨hge, rfl, rfl⟩
    · rename_i hge
      refine Or.inr ⟨hge, ?_⟩
      split at h
      · rename_i children c3 hch
        split at h
        · cases h
        · rename_i hs
          cases h
          exact ⟨children, c3, hch, by omega, rfl, rfl⟩
      all_goals cases h
  all_goals cases h

/-- The ways the child loop returns a chain. -/
theorem readChildren_ok {re : Cursor → Step ElemPtr} {limit : Int} {fuel : Nat}
    {c c2 : Cursor} {e : ElemPtr} (h : readChildren re limit (fuel + 1) c = .ok e c2) :
    (¬ ((c.current : Int) - (c.begin : Int) < limit) ∧ e = .null ∧ c2 = c) ∨
    ((c.current : Int) - (c.begin : Int) < limit ∧
      ∃ id props ch sib c1 rest, re c = .ok (.elem id props ch sib) c1 ∧
        readChildren re limit fuel c1 = .ok rest c2 ∧ e = .elem id props ch rest) := by
  unfold readChildren at h
  split at h
  · rename_i hlt
    refine Or.inr ⟨hlt, ?_⟩
    split at h
    · rename_i child c1 hre
      split at h
      · cases h
      · rename_i id props ch sib
        split at h
        · rename_i rest c3 hrest
          cases h
          exact ⟨id, props, ch, sib, c1, rest, hre, hrest, rfl⟩
        all_goals cases h
    all_goals cases h
  · rename_i hlt
    cases h
    exact Or.inl ⟨hlt, rfl, rfl⟩

/-- The ways the loop of `tokenize` returns a chain. -/
theorem tokenizeLoop_ok {buf : List Byte} {version ef fuel : Nat}
    {c c2 : Cursor} {e : ElemPtr} (h : tokenizeLoop buf version ef (fuel + 1) c = .ok e c2) :
    (e = .null ∧ readElement buf version ef c = .ok .null c2) ∨
    (∃ id props ch sib c1 rest, readElement buf version ef c = .ok (.elem id props ch sib) c1 ∧
        tokenizeLoop buf version ef fuel c1 = .ok rest c2 ∧ e = .elem id props ch rest) := by
  unfold tokenizeLoop at h
  split at h
  · rename_i child c1 hre
    split at h
    · cases h
      exact Or.inl ⟨rfl, hre⟩
    · rename_i id props ch sib
      split at h
      · rename_i rest c3 hrest
        cases h
        exact Or.inr ⟨id, props, ch, sib, c1, rest, hre, hrest, rfl⟩
      all_goals cases h
  all_goals cases h

theorem readElement_single {buf : List Byte} {version fuel : Nat} {c c2 : Cursor}
    {e : ElemPtr} (h : readElement buf version fuel c = .ok e c2) : e.Single := by
  cases fuel with
  | zero => simp [readElement] at h
  | succ fuel =>
    rcases readElement_ok h with ⟨rfl, -⟩ | ⟨hd, c1, -, ⟨-, rfl, -⟩ | ⟨-, ch, c3, -, -, rfl, -⟩⟩
    all_goals simp [ElemPtr.Single]


theorem countedChildren_of_readChildren {re : Cursor → Step ElemPtr}
    {cnt : Cursor → Step (ElemPtr × Nat)} {limit : Int}
    (H : ∀ c e c1, re c = .ok e c1 → cnt c = .ok (e, e.size) c1 ∧ e.Single) :
    ∀ (fuel : Nat) (c c2 : Cursor) (e : ElemPtr),
      readChildren re limit fuel c = .ok e c2 →
      countedChildren cnt limit fuel c = .ok (e, e.size) c2 := by
  intro fuel
  induction fuel with
  | zero => intro c c2 e h; simp [readChildren] at h
  | succ fuel ih =>
    intro c c2 e h
    rcases readChildren_ok h with ⟨hlt, rfl, rfl⟩ | ⟨hlt, id, props, ch, sib, c1, rest, hre, hrest, rfl⟩
    · unfold countedChildren
      rw [if_neg hlt]; rfl
    · obtain ⟨hc, hs⟩ := H _ _ _ hre
      have hsib : sib = .null := hs
      subst hsib
      unfold countedChildren
      rw [if_pos hlt, hc]
      simp only [ih _ _ _ hrest, ElemPtr.size, Nat.add_zero]

theorem countedElement_of_readElement {buf : List Byte} {version : Nat} :
    ∀ (fuel : Nat) (c c2 : Cursor) (e : ElemPtr),
      readElement buf version fuel c = .ok e c2 →
      countedElement buf version fuel c = .ok (e, e.size) c2 := by
  intro fuel
  induction fuel with
  | zero => intro c c2 e h; simp [readElement] at h
  | succ fuel ih =>
    intro c c2 e h
    rcases readElement_ok h with ⟨rfl, hh⟩ | ⟨hd, c1, hh, ⟨hge, rfl, rfl⟩ | ⟨hge, ch, c3, hch, hs, rfl, rfl⟩⟩
    · unfold countedElement
      rw [hh]; rfl
    · unfold countedElement
      rw [hh]
      simp only [if_pos hge, ElemPtr.size]
    · have := countedChildren_of_readChildren
        (fun c e c1 h => ⟨ih c c1 e h, readElement_single h⟩) _ _ _ _ hch
      unfold countedElement
      rw [hh]
      simp only [if_neg hge, this]
      rw [if_neg (by omega)]
      simp only [ElemPtr.size]
      congr 2

theorem countedLoop_of_tokenizeLoop {buf : List Byte} {version ef : Nat} :
    ∀ (fuel : Nat) (c c2 : Cursor) (e : ElemPtr),
      tokenizeLoop buf version ef fuel c = .ok e c2 →
      countedLoop buf version ef fuel c = .ok (e, e.size) c2 := by
  intro fuel
  induction fuel with
  | zero => intro c c2 e h; simp [tokenizeLoop] at h
  | succ fuel ih =>
    intro c c2 e h
    rcases tokenizeLoop_ok h with ⟨rfl, hre⟩ | ⟨id, props, ch, sib, c1, rest, hre, hrest, rfl⟩
    · unfold countedLoop
      rw [countedElement_of_readElement _ _ _ _ hre]
    · have hsib : sib = .null := readElement_single hre
      subst hsib
      unfold countedLoop
      rw [countedElement_of_readElement _ _ _ _ hre]
      simp only [ih _ _ _ hrest, ElemPtr.size, Nat.add_zero]


theorem Cursor.Ahead.trans {a b c : Cursor} (h1 : a.Ahead b) (h2 : b.Ahead c) : a.Ahead c :=
  ⟨h2.1.trans h1.1, h2.2.1.trans h1.2.1, Nat.le_trans h1.2.2 h2.2.2⟩

theorem readProperty_ahead {buf : List Byte} {c c2 : Cursor} {p : Property}
    (h : readProperty buf c = .ok p c2) : c.Ahead c2 ∧ c.current < c2.current := by
  obtain ⟨tag, n, -, -, -, -, rfl, -⟩ := readProperty_ok h
  exact ⟨⟨rfl, rfl, by simp only; omega⟩, by simp only; omega⟩

theorem readProperties_ahead {buf : List Byte} {count : Nat} :
    ∀ (fuel i : Nat) (c c2 : Cursor) (ps : List Property),
      readProperties buf count fuel i c = .ok ps c2 → c.Ahead c2 := by
  intro fuel
  induction fuel with
  | zero => intro i c c2 ps h; simp [readProperties] at h
  | succ fuel ih =>
    intro i c c2 ps h
    unfold readProperties at h
    split at h
    · split at h
      · rename_i prop c1 hp
        split at h
        · rename_i rest c3 hrest
          cases h
          exact (readProperty_ahead hp).1.trans (ih _ _ _ _ hrest)
        all_goals cases h
      all_goals cases h
    · cases h
      exact ⟨rfl, rfl, Nat.le_refl _⟩

/-- The cursor after the head of an element, and the place of the name view. -/
theorem readElementHead_some_ahead {buf : List Byte} {version : Nat} {c c5 : Cursor}
    {hd : ElementHead} (hh : readElementHead buf version c = .ok (some hd) c5) :
    c.Ahead c5 ∧ c.current + 13 ≤ hd.id.begin ∧ hd.id.begin ≤ c5.current ∧
      c.current + offsetWidth version ≤ c.end_ := by
  obtain ⟨h1, -, -, h4, h5, h6, fuel, h7⟩ := readElementHead_some hh
  have ha := readProperties_ahead _ _ _ _ _ h7
  have hw := offsetWidth_pos version
  obtain ⟨a1, a2, a3⟩ := ha
  simp only at a1 a2 a3
  exact ⟨⟨a1, a2, by omega⟩, by omega, by omega, by omega⟩

theorem within_children (re : Cursor → Step ElemPtr) (limit : Int)
    (H : ∀ c e c1, re c = .ok e c1 →
      c.Ahead c1 ∧ Within c.current c1.current e.preorder ∧ e.Single) :
    ∀ (fuel : Nat) (c c2 : Cursor) (e : ElemPtr),
      readChildren re limit fuel c = .ok e c2 →
      c.Ahead c2 ∧ Within c.current c2.current e.preorder := by
  intro fuel
  induction fuel with
  | zero => intro c c2 e h; simp [readChildren] at h
  | succ fuel ih =>
    intro c c2 e h
    rcases readChildren_ok h with ⟨hlt, rfl, rfl⟩ | ⟨hlt, id, props, ch, sib, c1, rest, hre, hrest, rfl⟩
    · exact ⟨⟨rfl, rfl, Nat.le_refl _⟩, by simp [Within, ElemPtr.preorder]⟩
    · obtain ⟨ha, hw, hs⟩ := H _ _ _ hre
      have hsib : sib = .null := hs
      subst hsib
      obtain ⟨ha2, hw2⟩ := ih _ _ _ hrest
      refine ⟨ha.trans ha2, ?_⟩
      have h12 := ha2.2.2
      have h01 := ha.2.2
      simp only [Within, ElemPtr.preorder, List.append_nil, List.pairwise_cons,
        List.mem_cons, forall_eq_or_imp, List.pairwise_append, List.mem_append] at hw hw2 ⊢
      obtain ⟨⟨hp1, hp2⟩, ⟨hb1, hb2⟩⟩ := hw
      obtain ⟨hq1, hq2⟩ := hw2
      refine ⟨⟨?_, hp2, hq1, ?_⟩, ⟨by omega, ?_⟩⟩
      · intro v hv
        rcases hv with hv | hv
        · exact hp1 v hv
        · have := hq2 v hv; omega
      · intro a ha' b hb'
        have := hb2 a ha'; have := hq2 b hb'; omega
      · intro v hv
        rcases hv with hv | hv
        · have := hb2 v hv; omega
        · have := hq2 v hv; omega

theorem within_element {buf : List Byte} {version : Nat} :
    ∀ (fuel : Nat) (c c2 : Cursor) (e : ElemPtr),
      readElement buf version fuel c = .ok e c2 →
      c.Ahead c2 ∧ Within c.current c2.current e.preorder := by
  intro fuel
  induction fuel with
  | zero => intro c c2 e h; simp [readElement] at h
  | succ fuel ih =>
    intro c c2 e h
    rcases readElement_ok h with ⟨rfl, hh⟩ | ⟨hd, c1, hh, ⟨hge, rfl, rfl⟩ | ⟨hge, ch, c3, hch, hs, rfl, rfl⟩⟩
    · obtain ⟨-, -, rfl⟩ := readElementHead_none hh
      exact ⟨⟨rfl, rfl, by simp⟩, by simp [Within, ElemPtr.preorder]⟩
    · obtain ⟨ha, h1, h2, -⟩ := readElementHead_some_ahead hh
      refine ⟨ha, ?_⟩
      simp only [Within, ElemPtr.preorder, List.append_nil, List.pairwise_cons,
        List.mem_cons, forall_eq_or_imp, List.Pairwise.nil, List.not_mem_nil]
      exact ⟨⟨by simp, trivial⟩, ⟨by omega, by omega⟩, by simp⟩
    · obtain ⟨ha, h1, h2, -⟩ := readElementHead_some_ahead hh
      obtain ⟨ha2, hw2⟩ := within_children _ _
        (fun c e c1 h => ⟨(ih c c1 e h).1, (ih c c1 e h).2, readElement_single h⟩) _ _ _ _ hch
      have h13 := ha2.2.2
      refine ⟨ha.trans ⟨ha2.1, ha2.2.1, by simp only; omega⟩, ?_⟩
      simp only [Within, ElemPtr.preorder, List.append_nil, List.pairwise_cons,
        List.mem_cons, forall_eq_or_imp] at hw2 ⊢
      obtain ⟨hq1, hq2⟩ := hw2
      refine ⟨⟨?_, hq1⟩, ⟨by omega, by omega⟩, ?_⟩
      · intro v hv; have := hq2 v hv; omega
      · intro v hv; have := hq2 v hv; omega

theorem within_tokenizeLoop {buf : List Byte} {version ef : Nat} :
    ∀ (fuel : Nat) (c c2 : Cursor) (e : ElemPtr),
      tokenizeLoop buf version ef fuel c = .ok e c2 →
      c.Ahead c2 ∧ Within c.current c2.current e.preorder := by
  intro fuel
  induction fuel with
  | zero => intro c c2 e h; simp [tokenizeLoop] at h
  | succ fuel ih =>
    intro c c2 e h
    rcases tokenizeLoop_ok h with ⟨rfl, hre⟩ | ⟨id, props, ch, sib, c1, rest, hre, hrest, rfl⟩
    · exact within_element _ _ _ _ hre
    · have hsib : sib = .null := readElement_single hre
      subst hsib
      obtain ⟨ha, hw⟩ := within_element _ _ _ _ hre
      obtain ⟨ha2, hw2⟩ := ih _ _ _ hrest
      refine ⟨ha.trans ha2, ?_⟩
      have h12 := ha2.2.2
      have h01 := ha.2.2
      simp only [Within, ElemPtr.preorder, List.append_nil, List.pairwise_cons,
        List.mem_cons, forall_eq_or_imp, List.pairwise_append, List.mem_append] at hw hw2 ⊢
      obtain ⟨⟨hp1, hp2⟩, ⟨hb1, hb2⟩⟩ := hw
      obtain ⟨hq1, hq2⟩ := hw2
      refine ⟨⟨?_, hp2, hq1, ?_⟩, ⟨by omega, ?_⟩⟩
      · intro v hv
        rcases hv with hv | hv
        · exact hp1 v hv
        · have := hq2 v hv; omega
      · intro a ha' b hb'
        have := hb2 a ha'; have := hq2 b hb'; omega
      · intro v hv
        rcases hv with hv | hv
        · have := hb2 v hv; omega
        · have := hq2 v hv; omega

theorem readLongString_ne_timeout (buf : List Byte) (c : Cursor) :
    readLongString buf c ≠ .timeout := by
  unfold readLongString
  have := read_ne_timeout buf 4 c
  split
  · split <;> simp
  · simp
  · simp
  · rename_i h; exact absurd h this

theorem readShortString_ne_timeout (buf : List Byte) (c : Cursor) :
    readShortString buf c ≠ .timeout := by
  unfold readShortString
  have := read_ne_timeout buf 1 c
  split
  · split <;> simp
  · simp
  · simp
  · rename_i h; exact absurd h this

theorem readRaw_ne_timeout (buf : List Byte) (t : Nat) (c : Cursor) :
    readRaw buf t c ≠ .timeout := by
  unfold readRaw finishProperty
  have := read_ne_timeout buf 4 c
  split
  · split <;> simp
  · simp
  · simp
  · rename_i h; exact absurd h this

theorem readArrayBlock_ne_timeout (buf : List Byte) (t : Nat) (c : Cursor) :
    readArrayBlock buf t c ≠ .timeout := by
  unfold readArrayBlock finishProperty
  split
  · simp
  · rename_i h; exact absurd h (read_ne_timeout _ _ _)
  · split
    · simp
    · rename_i h; exact absurd h (read_ne_timeout _ _ _)
    · split
      · simp
      · rename_i h; exact absurd h (read_ne_timeout _ _ _)
      · simp
      · split
        · split <;> simp
        · simp

theorem readProperty_ne_timeout (buf : List Byte) (c : Cursor) :
    readProperty buf c ≠ .timeout := by
  unfold readProperty
  split
  · simp
  · split
    · simp
    · simp only
      split
      · have := readLongString_ne_timeout buf { c with current := c.current + 1 }
        split
        · simp
        · simp
        · simp
        · rename_i h; exact absurd h this
      all_goals first
        | exact readRaw_ne_timeout _ _ _
        | exact readArrayBlock_ne_timeout _ _ _
        | simp [skipFixed, finishProperty]


theorem readProperty_ok_inside {buf : List Byte} {c c2 : Cursor} {p : Property}
    (h : readProperty buf c = .ok p c2) : c.current < c.end_ := by
  obtain ⟨tag, n, hl, -⟩ := readProperty_ok h
  unfold load at hl
  by_cases hh : c.begin ≤ c.current ∧ c.current < c.end_
  · exact hh.2
  · rw [if_neg hh] at hl; cases hl

theorem readProperties_ne_timeout (buf : List Byte) (count : Nat) :
    ∀ (fuel i : Nat) (c : Cursor), c.end_ - c.current < fuel →
      readProperties buf count fuel i c ≠ .timeout := by
  intro fuel
  induction fuel with
  | zero => intro i c h; omega
  | succ fuel ih =>
    intro i c hf
    unfold readProperties
    split
    · split
      · rename_i prop c1 hp
        have h1 := readProperty_ok_inside hp
        obtain ⟨⟨-, he, -⟩, hlt⟩ := readProperty_ahead hp
        have := ih ((i + 1) % 2 ^ 32) c1 (by omega)
        split
        · simp
        · simp
        · simp
        · rename_i h; exact absurd h this
      · simp
      · simp
      · rename_i h; exact absurd h (readProperty_ne_timeout _ _)
    · simp

theorem readElementHead_ne_timeout (buf : List Byte) (version : Nat) (c : Cursor) :
    readElementHead buf version c ≠ .timeout := by
  unfold readElementHead
  simp only [readElementOffset_eq]
  split
  · split
    · simp
    · split
      · simp
      · rename_i h; exact absurd h (read_ne_timeout _ _ _)
      · split
        · simp
        · rename_i h; exact absurd h (read_ne_timeout _ _ _)
        · simp
        · split
          · split
            · rename_i id c4 hs
              split
              · simp
              · simp
              · simp
              · rename_i h
                exact absurd h (readProperties_ne_timeout buf _ _ 0 c4 (by omega))
            · simp
            · simp
            · rename_i h; exact absurd h (readShortString_ne_timeout _ _)
          · simp
  · simp
  · simp
  · rename_i h; exact absurd h (read_ne_timeout _ _ _)

/-- A call of `readElement` that returns has read its first field and moved past it. -/
theorem readElement_progress {buf : List Byte} {version fuel : Nat} {c c2 : Cursor}
    {e : ElemPtr} (h : readElement buf version fuel c = .ok e c2) :
    c.Ahead c2 ∧ c.current + 4 ≤ c.end_ ∧ c.current + 4 ≤ c2.current := by
  have ha := (within_element _ _ _ _ h).1
  cases fuel with
  | zero => simp [readElement] at h
  | succ fuel =>
    have hw := offsetWidth_pos version
    rcases readElement_ok h with ⟨rfl, hh⟩ | ⟨hd, c1, hh, ⟨hge, rfl, rfl⟩ | ⟨hge, ch, c3, hch, hs, rfl, rfl⟩⟩
    · obtain ⟨-, h2, rfl⟩ := readElementHead_none hh
      exact ⟨ha, by omega, by simp only; omega⟩
    · obtain ⟨-, h1, h2, h3⟩ := readElementHead_some_ahead hh
      exact ⟨ha, by omega, by omega⟩
    · obtain ⟨⟨_, _, h0⟩, h1, h2, h3⟩ := readElementHead_some_ahead hh
      have := ha.2.2
      refine ⟨ha, by omega, ?_⟩
      have hc := (within_children (readElement buf version fuel) _
        (fun c e c1 h => ⟨(within_element _ _ _ _ h).1, (within_element _ _ _ _ h).2,
          readElement_single h⟩) _ _ _ _ hch).1.2.2
      simp only
      omega

theorem readChildren_ne_timeout (re : Cursor → Step ElemPtr) (limit : Int) (bound : Nat)
    (H : ∀ c e c1, re c = .ok e c1 →
      c.Ahead c1 ∧ c.current + 4 ≤ c.end_ ∧ c.current + 4 ≤ c1.current)
    (Hne : ∀ c, c.end_ - c.current ≤ bound → re c ≠ .timeout) :
    ∀ (fuel : Nat) (c : Cursor), c.end_ - c.current ≤ bound → c.end_ - c.current < fuel →
      readChildren re limit fuel c ≠ .timeout := by
  intro fuel
  induction fuel with
  | zero => intro c _ h; omega
  | succ fuel ih =>
    intro c hb hf
    unfold readChildren
    split
    · split
      · rename_i child c1 hre
        obtain ⟨⟨-, he, -⟩, h1, h2⟩ := H _ _ _ hre
        split
        · simp
        · have := ih c1 (by omega) (by omega)
          split
          · simp
          · simp
          · simp
          · rename_i h; exact absurd h this
      · simp
      · simp
      · rename_i h; exact absurd h (Hne c hb)
    · simp

theorem readElement_ne_timeout {buf : List Byte} {version : Nat} :
    ∀ (fuel : Nat) (c : Cursor), c.end_ - c.current < fuel →
      readElement buf version fuel c ≠ .timeout := by
  intro fuel
  induction fuel with
  | zero => intro c h; omega
  | succ fuel ih =>
    intro c hf
    unfold readElement
    split
    · simp
    · rename_i hd c1 hh
      obtain ⟨⟨-, he, h0⟩, h1, h2, h3⟩ := readElementHead_some_ahead hh
      have hw := offsetWidth_pos version
      split
      · simp
      · have := readChildren_ne_timeout (readElement buf version fuel)
          (toPtrdiff hd.end_offset - (blockSentinelLength version : Int))
          (c1.end_ - c1.current)
          (fun c e c1 h => readElement_progress h)
          (fun c hb => ih c (by omega)) fuel c1 (Nat.le_refl _) (by omega)
        split
        · split <;> simp
        · simp
        · simp
        · rename_i h; exact absurd h this
    · simp
    · simp
    · rename_i h; exact absurd h (readElementHead_ne_timeout _ _ _)

theorem tokenizeLoop_ne_timeout (buf : List Byte) (version ef : Nat) :
    ∀ (fuel : Nat) (c : Cursor), c.end_ - c.current < ef → c.end_ - c.current < fuel →
      tokenizeLoop buf version ef fuel c ≠ .timeout := by
  intro fuel
  induction fuel with
  | zero => intro c _ h; omega
  | succ fuel ih =>
    intro c he hf
    unfold tokenizeLoop
    split
    · rename_i child c1 hre
      obtain ⟨⟨-, h0, -⟩, h1, h2⟩ := readElement_progress hre
      split
      · simp
      · have := ih c1 (by omega) (by omega)
        split
        · simp
        · simp
        · simp
        · rename_i h; exact absurd h this
    · simp
    · simp
    · rename_i h; exact absurd h (readElement_ne_timeout _ _ he)

/-- The budget `tokenize` gives its loops is never used up: `tokenize` returns a root or an
error, or makes an undefined access. -/
theorem tokenize_ne_timeout (buf : List Byte) (data : Nat) :
    tokenize buf data ≠ .timeout := by
  unfold tokenize
  split
  · simp
  · rename_i version hv
    have := tokenizeLoop_ne_timeout buf version (buf.length + 2)
      (buf.length + 2) (startCursor buf data) (by simp [startCursor]; omega)
      (by simp [startCursor]; omega)
    split
    · simp
    · simp
    · simp
    · rename_i h; exact absurd h this

theorem load_ext {buf1 buf : List Byte} (hp : buf1 <+: buf) {c : Cursor} {e : Nat}
    (he : c.end_ ≤ e) {p : Nat} {b : Byte} (h : load buf1 c p = some b) :
    load buf (c.withEnd e) p = some b := by
  unfold load at h ⊢
  by_cases hc : c.begin ≤ p ∧ p < c.end_
  · rw [if_pos hc] at h
    rw [if_pos ⟨hc.1, by simp only [Cursor.withEnd]; omega⟩]
    obtain ⟨t, rfl⟩ := hp
    simp only [Cursor.withEnd]
    have hlt : p - c.begin < buf1.length := by
      by_contra hge
      rw [List.getElem?_eq_none (by omega)] at h
      cases h
    rw [List.getElem?_append_left hlt]
    exact h
  · rw [if_neg hc] at h; cases h

theorem loadLE_ext {buf1 buf : List Byte} (hp : buf1 <+: buf) {c : Cursor} {e : Nat}
    (he : c.end_ ≤ e) : ∀ (n p : Nat) (v : Nat), loadLE buf1 c p n = some v →
    loadLE buf (c.withEnd e) p n = some v := by
  intro n
  induction n with
  | zero => intro p v h; simpa [loadLE] using h
  | succ n ih =>
    intro p v h
    unfold loadLE at h ⊢
    cases h1 : load buf1 c p with
    | none => simp [h1] at h
    | some b =>
      cases h2 : loadLE buf1 c (p + 1) n with
      | none => simp [h1, h2] at h
      | some w =>
        simp only [h1, h2] at h
        rw [load_ext hp he h1, ih _ _ h2]
        exact h

theorem read_ext {buf1 buf : List Byte} (hp : buf1 <+: buf) {c c2 : Cursor} {e n v : Nat}
    (he : c.end_ ≤ e) (h : read buf1 n c = .ok v c2) :
    read buf n (c.withEnd e) = .ok v (c2.withEnd e) := by
  obtain ⟨hle, hv, rfl⟩ := read_ok h
  exact @read_eq_ok buf n (c.withEnd e) v
    (by simp only [Cursor.withEnd]; omega) (loadLE_ext hp he _ _ _ hv)

theorem readShortString_ext {buf1 buf : List Byte} (hp : buf1 <+: buf) {c c2 : Cursor}
    {e : Nat} {v : DataView} (he : c.end_ ≤ e) (h : readShortString buf1 c = .ok v c2) :
    readShortString buf (c.withEnd e) = .ok v (c2.withEnd e) := by
  unfold readShortString at h ⊢
  split at h
  · rename_i len c1 hr
    rw [read_ext hp he hr]
    obtain ⟨_, _, rfl⟩ := read_ok hr
    split at h
    · cases h
    · rename_i hle
      cases h
      simp only [Cursor.withEnd] at hle ⊢
      rw [if_neg (by omega)]
  all_goals cases h

theorem readLongString_ext {buf1 buf : List Byte} (hp : buf1 <+: buf) {c c2 : Cursor}
    {e : Nat} {v : DataView} (he : c.end_ ≤ e) (h : readLongString buf1 c = .ok v c2) :
    readLongString buf (c.withEnd e) = .ok v (c2.withEnd e) := by
  unfold readLongString at h ⊢
  split at h
  · rename_i len c1 hr
    rw [read_ext hp he hr]
    obtain ⟨_, _, rfl⟩ := read_ok hr
    split at h
    · cases h
    · rename_i hle
      cases h
      simp only [Cursor.withEnd] at hle ⊢
      rw [if_neg (by omega)]
  all_goals cases h

theorem readRaw_ext {buf1 buf : List Byte} (hp : buf1 <+: buf) {c c2 : Cursor}
    {e t : Nat} {v : Property} (he : c.end_ ≤ e) (h : readRaw buf1 t c = .ok v c2) :
    readRaw buf t (c.withEnd e) = .ok v (c2.withEnd e) := by
  unfold readRaw at h ⊢
  split at h
  · rename_i len c1 hr
    rw [read_ext hp he hr]
    obtain ⟨_, _, rfl⟩ := read_ok hr
    split at h
    · cases h
    · rename_i hle
      unfold finishProperty at h
      cases h
      simp only [Cursor.withEnd, finishProperty] at hle ⊢
      rw [if_neg (by omega)]
  all_goals cases h

theorem readArrayBlock_ext {buf1 buf : List Byte} (hp : buf1 <+: buf) {c c2 : Cursor}
    {e t : Nat} {v : Property} (he : c.end_ ≤ e) (h : readArrayBlock buf1 t c = .ok v c2) :
    readArrayBlock buf t (c.withEnd e) = .ok v (c2.withEnd e) := by
  unfold readArrayBlock at h ⊢
  cases h1 : read buf1 4 c with
  | fault f => simp [h1] at h
  | timeout => simp [h1] at h
  | error e1 c1 =>
    obtain ⟨hlt, -, rfl⟩ := read_error h1
    simp only [h1, Step.cursorD] at h
    simp [h1] at h
  | ok v1 c1 =>
    have e1 := read_ext hp he h1
    obtain ⟨_, _, rfl⟩ := read_ok h1
    simp only [h1, Step.cursorD] at h
    cases h2 : read buf1 4 { c with current := c.current + 4 } with
    | fault f => simp [h2] at h
    | timeout => simp [h2] at h
    | error e2 c2 =>
      obtain ⟨hlt, -, rfl⟩ := read_error h2
      simp only [h2, Step.cursorD] at h
      simp [h2] at h
    | ok v2 c2' =>
      have e2 := read_ext hp (c := { c with current := c.current + 4 }) he h2
      obtain ⟨_, _, rfl⟩ := read_ok h2
      simp only [h2, Step.cursorD] at h
      cases h3 : read buf1 4 { c with current := c.current + 4 + 4 } with
      | fault f => simp [h3] at h
      | timeout => simp [h3] at h
      | error e3 c3 => simp [h3] at h
      | ok v3 c3 =>
        have e3 := read_ext hp (c := { c with current := c.current + 4 + 4 }) he h3
        obtain ⟨_, hv3, rfl⟩ := read_ok h3
        simp only [h3] at h
        split at h
        · cases h
        · rename_i hle
          unfold finishProperty at h
          cases h
          simp only [Cursor.withEnd] at e1 e2 e3 hle ⊢
          simp only [e1, Step.cursorD, e2, e3, finishProperty]
          rw [if_neg (by omega)]

/-- A property read from a buffer is read, the same, from any buffer that extends it. -/
theorem readProperty_ext {buf1 buf : List Byte} (hp : buf1 <+: buf) {c c2 : Cursor}
    {e : Nat} {v : Property} (he : c.end_ ≤ e) (h : readProperty buf1 c = .ok v c2) :
    readProperty buf (c.withEnd e) = .ok v (c2.withEnd e) := by
  have hin := readProperty_ok_inside h
  unfold readProperty at h ⊢
  rw [if_neg (by omega)] at h
  rw [if_neg (by simp only [Cursor.withEnd]; omega)]
  cases hl : load buf1 c c.current with
  | none => simp [hl] at h
  | some tag =>
    have hl2 : load buf (c.withEnd e) (c.withEnd e).current = some tag := load_ext hp he hl
    rw [hl2]
    simp only [hl] at h ⊢
    split at h
    · split at h
      · rename_i val c3 hls
        cases h
        have := readLongString_ext hp (c := { c with current := c.current + 1 }) he hls
        simp only [Cursor.withEnd] at this ⊢
        simp only [this]
      all_goals cases h
    all_goals first
      | exact readRaw_ext hp (c := { c with current := c.current + 1 }) he h
      | exact readArrayBlock_ext hp (c := { c with current := c.current + 1 }) he h
      | (unfold skipFixed finishProperty at h ⊢
         cases h
         rfl)
      | cases h

theorem readProperties_ext {buf1 buf : List Byte} (hp : buf1 <+: buf) {count e : Nat} :
    ∀ (f g i : Nat) (c c2 : Cursor) (ps : List Property), f ≤ g → c.end_ ≤ e →
      readProperties buf1 count f i c = .ok ps c2 →
      readProperties buf count g i (c.withEnd e) = .ok ps (c2.withEnd e) := by
  intro f
  induction f with
  | zero => intro g i c c2 ps _ _ h; simp [readProperties] at h
  | succ f ih =>
    intro g i c c2 ps hfg he h
    obtain ⟨g, rfl⟩ : ∃ k, g = k + 1 := ⟨g - 1, by omega⟩
    unfold readProperties at h ⊢
    split at h
    · rename_i hlt
      rw [if_pos hlt]
      split at h
      · rename_i prop c1 hpr
        rw [readProperty_ext hp he hpr]
        have hend := (readProperty_ahead hpr).1.2.1
        split at h
        · rename_i rest c3 hrest
          cases h
          have := ih g _ c1 c2 rest (by omega) (by omega) hrest
          simp only [this]
        all_goals cases h
      all_goals cases h
    · rename_i hlt
      cases h
      rw [if_neg hlt]

theorem readElementHead_ext {buf1 buf : List Byte} (hp : buf1 <+: buf) {version e : Nat}
    {c c2 : Cursor} {r : Option ElementHead} (he : c.end_ ≤ e)
    (h : readElementHead buf1 version c = .ok r c2) :
    readElementHead buf version (c.withEnd e) = .ok r (c2.withEnd e) := by
  unfold readElementHead at h ⊢
  simp only [readElementOffset_eq] at h ⊢
  generalize offsetWidth version = w at h ⊢
  cases h1 : read buf1 w c with
  | fault f => simp [h1] at h
  | timeout => simp [h1] at h
  | error e1 c1 => simp [h1] at h
  | ok v1 c1 =>
    have e1 := read_ext hp he h1
    obtain ⟨_, _, rfl⟩ := read_ok h1
    simp only [h1] at h
    simp only [e1]
    split at h
    · rename_i hz
      cases h
      rw [if_pos hz]
    · rename_i hz
      rw [if_neg hz]
      cases h2 : read buf1 w { c with current := c.current + w } with
      | fault f => simp [h2] at h
      | timeout => simp [h2] at h
      | error e2 c2 =>
        obtain ⟨hlt, -, rfl⟩ := read_error h2
        simp only [h2, Step.cursorD] at h
        simp [h2] at h
      | ok v2 c2' =>
        have e2 := read_ext hp (c := { c with current := c.current + w }) he h2
        obtain ⟨_, _, rfl⟩ := read_ok h2
        simp only [h2, Step.cursorD] at h
        cases h3 : read buf1 w { c with current := c.current + w + w } with
        | fault f => simp [h3] at h
        | timeout => simp [h3] at h
        | error e3 c3 => simp [h3] at h
        | ok v3 c3 =>
          have e3 := read_ext hp (c := { c with current := c.current + w + w }) he h3
          obtain ⟨_, _, rfl⟩ := read_ok h3
          simp only [h3] at h
          simp only [Cursor.withEnd] at e1 e2 e3 ⊢
          simp only [e2, Step.cursorD, e3]
          cases hs : readShortString buf1 { c with current := c.current + w + w + w } with
          | fault f => simp [hs] at h
          | timeout => simp [hs] at h
          | error e4 c4 => simp [hs] at h
          | ok id c4 =>
            have e4 := readShortString_ext hp (c := { c with current := c.current + w + w + w })
              he hs
            obtain ⟨len, -, hlen, -, rfl⟩ := readShortString_ok hs
            simp only [Cursor.withEnd] at e4 hlen
            simp only [hs] at h
            simp only [e4]
            split at h
            · rename_i props c5 hps
              cases h
              have := readProperties_ext hp (e := e) _
                (e - (c.current + w + w + w + 1 + len) + 1) _ _ _ _
                (by simp only [] at *; omega) (by simp only [] at *; omega) hps
              simp only [Cursor.withEnd] at this ⊢
              simp only [this]
            all_goals cases h

theorem readChildren_ext {re1 re : Cursor → Step ElemPtr} {limit : Int} {e : Nat}
    (H : ∀ c v c2, c.end_ ≤ e → re1 c = .ok v c2 →
      c2.end_ = c.end_ ∧ re (c.withEnd e) = .ok v (c2.withEnd e)) :
    ∀ (f g : Nat) (c c2 : Cursor) (v : ElemPtr), f ≤ g → c.end_ ≤ e →
      readChildren re1 limit f c = .ok v c2 →
      readChildren re limit g (c.withEnd e) = .ok v (c2.withEnd e) := by
  intro f
  induction f with
  | zero => intro g c c2 v _ _ h; simp [readChildren] at h
  | succ f ih =>
    intro g c c2 v hfg he h
    obtain ⟨g, rfl⟩ : ∃ k, g = k + 1 := ⟨g - 1, by omega⟩
    rcases readChildren_ok h with ⟨hlt, rfl, rfl⟩ | ⟨hlt, id, props, ch, sib, c1, rest, hre, hrest, rfl⟩
    · unfold readChildren
      rw [if_neg (by simpa only [Cursor.withEnd] using hlt)]
    · obtain ⟨hend, hre2⟩ := H _ _ _ he hre
      have := ih g c1 c2 rest (by omega) (by omega) hrest
      unfold readChildren
      rw [if_pos (by simpa only [Cursor.withEnd] using hlt), hre2]
      simp only [this]

theorem readElement_ext {buf1 buf : List Byte} (hp : buf1 <+: buf) {version e : Nat} :
    ∀ (f g : Nat) (c c2 : Cursor) (v : ElemPtr), f ≤ g → c.end_ ≤ e →
      readElement buf1 version f c = .ok v c2 →
      readElement buf version g (c.withEnd e) = .ok v (c2.withEnd e) := by
  intro f
  induction f with
  | zero => intro g c c2 v _ _ h; simp [readElement] at h
  | succ f ih =>
    intro g c c2 v hfg he h
    obtain ⟨g, rfl⟩ : ∃ k, g = k + 1 := ⟨g - 1, by omega⟩
    rcases readElement_ok h with ⟨rfl, hh⟩ | ⟨hd, c1, hh, ⟨hge, rfl, rfl⟩ | ⟨hge, ch, c3, hch, hs, rfl, rfl⟩⟩
    · unfold readElement
      rw [readElementHead_ext hp he hh]
    · unfold readElement
      rw [readElementHead_ext hp he hh]
      simp only
      rw [if_pos (by simpa only [Cursor.withEnd] using hge)]
    · have hend1 := (readElementHead_some_ahead hh).1.2.1
      have hch2 := @readChildren_ext (readElement buf1 version f)
        (readElement buf version g) _ e
        (fun c v c2 hce hr => ⟨(within_element _ _ _ _ hr).1.2.1, ih g c c2 v (by omega) hce hr⟩)
        f g c1 c3 ch (by omega) (by omega) hch
      have hend3 := (within_children _ _ (fun c e c1 h =>
        ⟨(within_element _ _ _ _ h).1, (within_element _ _ _ _ h).2, readElement_single h⟩)
        _ _ _ _ hch).1.2.1
      unfold readElement
      rw [readElementHead_ext hp he hh]
      simp only
      rw [if_neg (by simpa only [Cursor.withEnd] using hge), hch2]
      simp only [Cursor.withEnd]
      rw [if_neg (by omega)]

theorem tokenizeLoop_ext {buf1 buf : List Byte} (hp : buf1 <+: buf)
    {version e ef eg : Nat} (hef : ef ≤ eg) :
    ∀ (f g : Nat) (c c2 : Cursor) (v : ElemPtr), f ≤ g → c.end_ ≤ e →
      tokenizeLoop buf1 version ef f c = .ok v c2 →
      tokenizeLoop buf version eg g (c.withEnd e) = .ok v (c2.withEnd e) := by
  intro f
  induction f with
  | zero => intro g c c2 v _ _ h; simp [tokenizeLoop] at h
  | succ f ih =>
    intro g c c2 v hfg he h
    obtain ⟨g, rfl⟩ : ∃ k, g = k + 1 := ⟨g - 1, by omega⟩
    rcases tokenizeLoop_ok h with ⟨rfl, hre⟩ | ⟨id, props, ch, sib, c1, rest, hre, hrest, rfl⟩
    · unfold tokenizeLoop
      rw [readElement_ext hp _ _ _ _ _ hef he hre]
    · have hend := (within_element _ _ _ _ hre).1.2.1
      have := ih g c1 c2 rest (by omega) (by omega) hrest
      unfold tokenizeLoop
      rw [readElement_ext hp _ _ _ _ _ hef he hre]
      simp only [this]

/-- The loop of `tokenize` returns with the cursor inside the buffer: its last read is the
terminator, read with a test against the end. -/
theorem tokenizeLoop_inside {buf : List Byte} {version ef : Nat} :
    ∀ (f : Nat) (c c2 : Cursor) (v : ElemPtr),
      tokenizeLoop buf version ef f c = .ok v c2 → c2.current ≤ c2.end_ := by
  intro f
  induction f with
  | zero => intro c c2 v h; simp [tokenizeLoop] at h
  | succ f ih =>
    intro c c2 v h
    rcases tokenizeLoop_ok h with ⟨rfl, hre⟩ | ⟨id, props, ch, sib, c1, rest, hre, hrest, rfl⟩
    · cases ef with
      | zero => simp [readElement] at hre
      | succ ef =>
        rcases readElement_ok hre with ⟨-, hh⟩ | ⟨hd, c1, hh, ⟨-, he, -⟩ | ⟨-, ch, c3, -, -, he, -⟩⟩
        · obtain ⟨-, hle, rfl⟩ := readElementHead_none hh
          exact hle
        · cases he
        · cases he
    · exact ih _ _ _ hrest

/-- No tree from a truncated buffer: when `tokenize` returns a root with the cursor at
offset `p`, it returns no root on a prefix of the buffer shorter than `p` (it fails with an
error, or it makes an undefined access). -/
theorem tokenize_prefix_no_root (buf : List Byte) (data n : Nat) (root : ElemPtr)
    (c : Cursor) (h : tokenize buf data = .ok root c) (hn : data + n < c.current) :
    ∀ r c1, tokenize (buf.take n) data ≠ .ok r c1 := by
  intro r c1 h1
  have hp : buf.take n <+: buf := List.take_prefix n buf
  have hlen : (buf.take n).length ≤ buf.length := by simp
  have hsc : (startCursor (buf.take n) data).withEnd (data + buf.length)
      = startCursor buf data := rfl
  unfold tokenize at h h1
  cases hv1 : loadLE (buf.take n) (startCursor (buf.take n) data) (data + versionOffset) 4 with
  | none => simp [hv1] at h1
  | some version =>
    have hv := loadLE_ext hp (e := data + buf.length) (by simp [startCursor]) _ _ _ hv1
    rw [hsc] at hv
    simp only [hv1] at h1
    simp only [hv] at h
    cases hl1 : tokenizeLoop (buf.take n) version ((buf.take n).length + 2)
        ((buf.take n).length + 2) (startCursor (buf.take n) data) with
    | ok chain c1' =>
      have hl := @tokenizeLoop_ext _ _ hp version (data + buf.length) _ (buf.length + 2)
        (by omega) _ (buf.length + 2) _ _ _ (by omega) (by simp [startCursor]) hl1
      rw [hsc] at hl
      simp only [hl] at h
      cases h
      have hin := tokenizeLoop_inside _ _ _ _ hl1
      have hend := (within_tokenizeLoop _ _ _ _ hl1).1.2.1
      simp only [startCursor, Cursor.withEnd] at hin hend hn
      have : (buf.take n).length ≤ n := by simp
      omega
    | error e1 c1' => rw [hl1] at h1; cases h1
    | fault f => rw [hl1] at h1; cases h1
    | timeout => rw [hl1] at h1; cases h1


/-- The part of claim C5 that holds: `read<T>`, `readShortString` and `readLongString` leave
a cursor that satisfies `begin <= current <= end`, whether they return a value or an
error. -/
theorem checked_reads_keep_invariant (buf : List Byte) (c : Cursor) (hc : c.Inv) :
    (∀ n v c2, read buf n c = .ok v c2 → c2.Inv) ∧
    (∀ n e c2, read buf n c = .error e c2 → c2.Inv) ∧
    (∀ v c2, readShortString buf c = .ok v c2 → c2.Inv) ∧
    (∀ e c2, readShortString buf c = .error e c2 → c2.Inv) ∧
    (∀ v c2, readLongString buf c = .ok v c2 → c2.Inv) ∧
    (∀ e c2, readLongString buf c = .error e c2 → c2.Inv) := by
  obtain ⟨h1, h2⟩ := hc
  refine ⟨?_, ?_, ?_, ?_, ?_, ?_⟩
  · intro n v c2 h
    obtain ⟨hle, -, rfl⟩ := read_ok h
    exact ⟨by simp only; omega, hle⟩
  · intro n e c2 h
    obtain ⟨-, -, rfl⟩ := read_error h
    exact ⟨h1, h2⟩
  · intro v c2 h
    obtain ⟨len, -, hle, -, rfl⟩ := readShortString_ok h
    exact ⟨by simp only; omega, hle⟩
  · intro e c2 h
    unfold readShortString at h
    split at h
    · rename_i len c1 hr
      obtain ⟨hle, -, rfl⟩ := read_ok hr
      split at h
      · cases h; exact ⟨by simp only; omega, hle⟩
      · cases h
    · rename_i e1 c1 hr
      obtain ⟨-, -, rfl⟩ := read_error hr
      cases h; exact ⟨h1, h2⟩
    all_goals cases h
  · intro v c2 h
    obtain ⟨len, -, hle, -, rfl⟩ := readLongString_ok h
    exact ⟨by simp only; omega, hle⟩
  · intro e c2 h
    unfold readLongString at h
    split at h
    · rename_i len c1 hr
      obtain ⟨hle, -, rfl⟩ := read_ok hr
      split at h
      · cases h; exact ⟨by simp only; omega, hle⟩
      · cases h
    · rename_i e1 c1 hr
      obtain ⟨-, -, rfl⟩ := read_error hr
      cases h; exact ⟨h1, h2⟩
    all_goals cases h

/-- Claim C1.  When `tokenize` returns a root, the elements of the tree (those hanging from
the synthetic root, which no record of the buffer stands for) are as many as the calls of
`readElement` that read a non-zero end offset, and a pre-order walk (an element, then its
child chain with all descendants, then its sibling) meets name views at strictly increasing
byte offsets in the buffer, all of them after the header and not after the final cursor. -/
theorem tokenize_count_and_order (buf : List Byte) (data : Nat) (root : ElemPtr)
    (c : Cursor) (h : tokenize buf data = .ok root c) :
    ∃ chain n, root = .elem nullView [] chain .null ∧
      countedTokenize buf data = .ok (root, n) c ∧ chain.size = n ∧
      chain.preorder.Pairwise (fun a b => a.begin - data < b.begin - data) ∧
      ∀ v ∈ chain.preorder, data + headerSize < v.begin ∧ v.begin ≤ c.current := by
  unfold tokenize at h
  split at h
  · cases h
  · rename_i version hv
    split at h
    · rename_i chain c' hl
      cases h
      have hcnt := countedLoop_of_tokenizeLoop _ _ _ _ hl
      obtain ⟨-, hp, hb⟩ := within_tokenizeLoop _ _ _ _ hl
      refine ⟨chain, chain.size, rfl, ?_, rfl, ?_, ?_⟩
      · unfold countedTokenize
        rw [hv]
        simp only [hcnt]
      · refine List.Pairwise.imp_of_mem ?_ hp
        intro a b ha hb' hab
        have h1 := hb a ha
        have h2 := hb b hb'
        simp only [startCursor] at h1 h2
        omega
      · intro v hv'
        have := hb v hv'
        simpa [startCursor] using this
    all_goals cases h

theorem tokenize_count_and_order_witness :
    ∃ chain n, (ElemPtr.elem nullView []
        (.elem ⟨40, 41, true⟩ [] (.elem ⟨54, 54, true⟩ [] .null .null)
          (.elem ⟨80, 80, true⟩ [] .null .null)) .null) = .elem nullView [] chain .null ∧
      countedTokenize sampleNested 0 = .ok (ElemPtr.elem nullView []
        (.elem ⟨40, 41, true⟩ [] (.elem ⟨54, 54, true⟩ [] .null .null)
          (.elem ⟨80, 80, true⟩ [] .null .null)) .null, n) ⟨84, 0, 84⟩ ∧ chain.size = n ∧
      chain.preorder.Pairwise (fun a b => a.begin - 0 < b.begin - 0) ∧
      ∀ v ∈ chain.preorder, 0 + headerSize < v.begin ∧ v.begin ≤ 84 :=
  tokenize_count_and_order sampleNested 0 _ ⟨84, 0, 84⟩ (by decide)

/-- Claim C2, at a failing input.  The 48-byte file `sampleTwoBools` is tokenized with the
cursor finishing at offset 48.  On its 41-byte prefix, cut inside the first property `C`,
the cursor is moved past the end without a test, and the next `readProperty` loads its tag
byte outside the buffer: the call does not fail with an error. -/
theorem tokenize_truncated_reads_out_of_bounds :
    tokenize sampleTwoBools 0 =
      .ok (.elem nullView [] (.elem ⟨40, 40, true⟩
        [⟨67, ⟨41, 42, true⟩, 0⟩, ⟨67, ⟨43, 44, true⟩, 0⟩] .null .null) .null) ⟨48, 0, 48⟩ ∧
    tokenize (sampleTwoBools.take 41) 0 = .fault .outOfBounds := by
  decide

/-- Claim C4 is false for tag `S`: on the bytes `S 01 00 00 00 x` the payload view begins at
offset 5, after the length field, not at offset 1 right after the tag byte. -/
theorem readProperty_string_payload_begin :
    ¬ (∀ p c2, readProperty [83, 1, 0, 0, 0, 120] ⟨0, 0, 6⟩ = .ok p c2 →
        p.value.begin = 0 + 1 ∧ p.value.end_ = c2.current) := by
  intro h
  have := (h ⟨83, ⟨5, 6, true⟩, 0⟩ ⟨6, 0, 6⟩ (by decide)).1
  simp at this

/-- Claim C4, amended.  When `readProperty` succeeds the payload view ends at the final
cursor position; it begins at the byte right after the tag byte for every tag but `S`, and
for `S` four bytes later, after the length field (which is consumed but left out of the
view). -/
theorem readProperty_payload_view (buf : List Byte) (c c2 : Cursor) (p : Property)
    (h : readProperty buf c = .ok p c2) :
    p.value.end_ = c2.current ∧
      (p.type ≠ 83 → p.value.begin = c.current + 1) ∧
      (p.type = 83 → p.value.begin = c.current + 5) := by
  obtain ⟨tag, n, -, -, hty, -, rfl, hb, he, -⟩ := readProperty_ok h
  rw [hty]
  refine ⟨he, ?_, ?_⟩
  · intro hne; rw [hb, if_neg hne]
  · intro heq; rw [hb, if_pos heq]

theorem readProperty_payload_view_witness :
    (5 : Nat) + 1 = 6 ∧ ((83 : Nat) ≠ 83 → 5 = 0 + 1) ∧ ((83 : Nat) = 83 → 5 = 0 + 5) :=
  readProperty_payload_view [83, 1, 0, 0, 0, 120] ⟨0, 0, 6⟩ ⟨6, 0, 6⟩
    ⟨83, ⟨5, 6, true⟩, 0⟩ (by decide)

/-- Claim C5, at a failing input.  On the one-byte buffer `D` the call of `readProperty`
succeeds and leaves the cursor at offset 9, past `end = 1`: the fixed-width cases move the
cursor with no test, and nothing is rejected with a read-past-end error. -/
theorem readProperty_fixed_width_passes_end :
    readProperty [68] ⟨0, 0, 1⟩ = .ok ⟨68, ⟨1, 9, true⟩, 0⟩ ⟨9, 0, 1⟩ ∧
      ¬ ((⟨9, 0, 1⟩ : Cursor).current ≤ (⟨9, 0, 1⟩ : Cursor).end_) := by
  decide

/-- Claim C7, at a failing input.  For the file version 65536 (which is `>= 7500`) the fields
of an element are read 4 bytes wide, because `readElementOffset` takes the version as a
`uint16`: a 31-byte file with that version is tokenized, its 4 zero bytes being read as the
terminator, while the sentinel length for the same version is 25. -/
theorem readElement_width_for_version_65536 :
    readElementOffset sampleVersion65536 (startCursor sampleVersion65536 0) (toUint16 65536)
      = .ok 0 ⟨31, 0, 31⟩ ∧
    tokenize sampleVersion65536 0 = .ok (.elem nullView [] .null .null) ⟨31, 0, 31⟩ ∧
    offsetWidth 65536 = 4 ∧ blockSentinelLength 65536 = 25 := by
  decide

/-- Claim C8, at a failing input.  For a zero end offset `readElement` returns null without
an error; but when that record is the first of the child region of an element, the child
loop of the enclosing `readElement` goes on to `link = &(*link).sibling` with `*link` null,
an access through the null pointer, also when the whole file is given to `tokenize`. -/
theorem readElement_null_child_is_dereferenced :
    readElement sampleNullChild 7400 3 ⟨40, 0, 74⟩ = .ok .null ⟨44, 0, 74⟩ ∧
    readElement sampleNullChild 7400 4 ⟨27, 0, 74⟩ = .fault .nullDeref ∧
    tokenize sampleNullChild 0 = .fault .nullDeref := by
  decide


theorem decodeProperties_order {buf : List Byte} :
    ∀ (n : Nat) (c c2 : Cursor) (ps : List Property),
      decodeProperties buf n c = some (ps, c2) →
      c.Ahead c2 ∧ ps.Pairwise (fun p q => p.value.end_ < q.value.begin) ∧
        ∀ p ∈ ps, c.current < p.value.begin ∧ p.value.end_ ≤ c2.current := by
  intro n
  induction n with
  | zero =>
    intro c c2 ps h
    simp only [decodeProperties, Option.some.injEq, Prod.mk.injEq] at h
    obtain ⟨rfl, rfl⟩ := h
    exact ⟨⟨rfl, rfl, Nat.le_refl _⟩, List.Pairwise.nil, by simp⟩
  | succ n ih =>
    intro c c2 ps h
    unfold decodeProperties at h
    split at h
    · rename_i p c1 hp
      cases hd : decodeProperties buf n c1 with
      | none => simp [hd] at h
      | some r =>
        obtain ⟨l, c3⟩ := r
        simp only [hd, Option.map_some', Option.some.injEq, Prod.mk.injEq] at h
        obtain ⟨rfl, rfl⟩ := h
        obtain ⟨ha, hpw, hall⟩ := ih _ _ _ hd
        obtain ⟨tag, k, -, -, -, -, rfl, hb, he, -⟩ := readProperty_ok hp
        have h3 := ha.2.2
        simp only at h3
        refine ⟨⟨ha.1, ha.2.1, by omega⟩, ?_, ?_⟩
        · rw [List.pairwise_cons]
          refine ⟨?_, hpw⟩
          intro q hq
          have := (hall q hq).1
          simp only at this
          omega
        · intro q hq
          rcases List.mem_cons.1 hq with rfl | hq
          · constructor
            · rw [hb]; split <;> omega
            · omega
          · have := hall q hq
            simp only at this
            omega
    · cases h

/-- Claim C9.  When `readElement` returns an element, its property list has exactly as many
nodes as the property-count field of the record says, whatever the value of that field (for
a value of `2^32` or more the 32-bit loop counter never reaches it and no element is
returned); the list is the sequence of results of that many successive calls of
`readProperty` from the end of the name, in that order, so the payload views of its nodes
follow one another in the byte stream. -/
theorem readElement_property_list (buf : List Byte) (version fuel : Nat) (c c2 : Cursor)
    (id : DataView) (props : List Property) (child sibling : ElemPtr)
    (h : readElement buf version fuel c = .ok (.elem id props child sibling) c2) :
    ∃ count c5,
      loadLE buf c (c.current + offsetWidth version) (offsetWidth version) = some count ∧
      props.length = count ∧
      decodeProperties buf count { c with current := id.end_ } = some (props, c5) ∧
      props.Pairwise (fun p q => p.value.end_ < q.value.begin) := by
  cases fuel with
  | zero => simp [readElement] at h
  | succ fuel =>
    have key : ∃ hd c1, readElementHead buf version c = .ok (some hd) c1 ∧
        id = hd.id ∧ props = hd.first_property := by
      rcases readElement_ok h with ⟨he, -⟩ | ⟨hd, c1, hh, ⟨-, he, -⟩ | ⟨-, ch, c3, -, -, he, -⟩⟩
      · cases he
      · cases he; exact ⟨hd, c1, hh, rfl, rfl⟩
      · cases he; exact ⟨hd, c1, hh, rfl, rfl⟩
    obtain ⟨hd, c1, hh, rfl, rfl⟩ := key
    obtain ⟨-, -, hcount, -, -, -, f, hps⟩ := readElementHead_some hh
    by_cases hlt : hd.prop_count < 2 ^ 32
    · have hdec := readProperties_ok_of_lt hlt f 0 _ _ _ (Nat.zero_le _) hps
      rw [Nat.sub_zero] at hdec
      exact ⟨hd.prop_count, c1, hcount, decodeProperties_length _ _ _ _ hdec, hdec,
        (decodeProperties_order _ _ _ _ hdec).2.1⟩
    · exact absurd hps (readProperties_wrap (by omega) f 0 _ _ _ (by norm_num))

theorem readElement_property_list_witness :
    ∃ count c5,
      loadLE sampleTwoBools ⟨27, 0, 48⟩ (27 + offsetWidth 7400) (offsetWidth 7400)
        = some count ∧
      [(⟨67, ⟨41, 42, true⟩, 0⟩ : Property), ⟨67, ⟨43, 44, true⟩, 0⟩].length = count ∧
      decodeProperties sampleTwoBools count { (⟨27, 0, 48⟩ : Cursor) with current := 40 }
        = some ([⟨67, ⟨41, 42, true⟩, 0⟩, ⟨67, ⟨43, 44, true⟩, 0⟩], c5) ∧
      [(⟨67, ⟨41, 42, true⟩, 0⟩ : Property), ⟨67, ⟨43, 44, true⟩, 0⟩].Pairwise
        (fun p q => p.value.end_ < q.value.begin) :=
  readElement_property_list sampleTwoBools 7400 3 ⟨27, 0, 48⟩ ⟨44, 0, 48⟩ ⟨40, 40, true⟩
    [⟨67, ⟨41, 42, true⟩, 0⟩, ⟨67, ⟨43, 44, true⟩, 0⟩] .null .null (by decide)

theorem load_inside {buf : List Byte} {c : Cursor} (hbuf : c.end_ ≤ c.begin + buf.length)
    {p : Nat} (h1 : c.begin ≤ p) (h2 : p < c.end_) : ∃ b, load buf c p = some b := by
  unfold load
  rw [if_pos ⟨h1, h2⟩]
  have : p - c.begin < buf.length := by omega
  exact ⟨buf[p - c.begin], List.getElem?_eq_getElem this⟩

theorem testAt_inside {buf : List Byte} {c : Cursor} (hbuf : c.end_ ≤ c.begin + buf.length)
    (h1 : c.begin ≤ c.current) (f : Byte → Bool) :
    (testAt buf c f = some true ∧ c.current < c.end_ ∧ (load buf c c.current).map f = some true) ∨
    (testAt buf c f = some false ∧
      (c.current < c.end_ → (load buf c c.current).map f = some false)) := by
  unfold testAt
  by_cases hlt : c.current < c.end_
  · obtain ⟨b, hb⟩ := load_inside hbuf h1 hlt
    rw [if_pos hlt, hb]
    cases hf : f b
    · right; simp [hf]
    · left; simp [hf, hlt]
  · right
    rw [if_neg hlt]
    exact ⟨rfl, fun h => absurd h hlt⟩

/-- The loop `skipWhile` stops at the end of the maximal run that starts at the cursor. -/
theorem skipWhile_run {buf : List Byte} {f : Byte → Bool} :
    ∀ (fuel : Nat) (c : Cursor), c.end_ ≤ c.begin + buf.length → c.begin ≤ c.current →
      c.current ≤ c.end_ → c.end_ - c.current < fuel →
      ∃ q, skipWhile buf f fuel c = .ok () { c with current := q } ∧
        MaximalRun buf c f c.current q := by
  intro fuel
  induction fuel with
  | zero => intro c _ _ _ h; omega
  | succ fuel ih =>
    intro c hbuf hb hle hf
    unfold skipWhile
    rcases testAt_inside hbuf hb f with ⟨ht, hlt, hl⟩ | ⟨ht, hl⟩
    · rw [ht]
      obtain ⟨q, hq, hr⟩ := ih c.advance hbuf (by simp [Cursor.advance]; omega)
        (by simp [Cursor.advance]; omega) (by simp [Cursor.advance]; omega)
      refine ⟨q, by simpa [Cursor.advance] using hq, ?_⟩
      obtain ⟨r1, r2, r3, r4⟩ := hr
      simp only [Cursor.advance, load_setCurrent] at r1 r2 r3 r4
      refine ⟨by omega, r2, ?_, r4⟩
      intro k hk1 hk2
      by_cases hk : k = c.current
      · rw [hk]; exact hl
      · exact r3 k hk1 (by omega)
    · rw [ht]
      exact ⟨c.current, rfl, Nat.le_refl _, hle, fun k h1 h2 => by omega, hl⟩


theorem testAt_eq_byteIs {buf : List Byte} {c : Cursor} (hbuf : c.end_ ≤ c.begin + buf.length)
    {p : Nat} (hp : c.begin ≤ p) (x : Nat) :
    testAt buf { c with current := p } (fun b => decide (b.val = x))
      = some (byteIs buf c p x) := by
  unfold testAt byteIs
  by_cases hlt : p < c.end_
  · obtain ⟨b, hb⟩ := load_inside hbuf hp hlt
    simp [hlt, hb]
  · have : load buf c p = none := by
      unfold load; rw [if_neg (by omega)]
    simp [hlt, this]

theorem testAt_eq_byteIs_or {buf : List Byte} {c : Cursor}
    (hbuf : c.end_ ≤ c.begin + buf.length) {p : Nat} (hp : c.begin ≤ p) (x y : Nat) :
    testAt buf { c with current := p } (fun b => decide (b.val = x) || decide (b.val = y))
      = some (byteIs buf c p x || byteIs buf c p y) := by
  unfold testAt byteIs
  by_cases hlt : p < c.end_
  · obtain ⟨b, hb⟩ := load_inside hbuf hp hlt
    simp [hlt, hb]
  · have : load buf c p = none := by
      unfold load; rw [if_neg (by omega)]
    simp [hlt, this]

theorem byteIs_lt {buf : List Byte} {c : Cursor} {p x : Nat}
    (h : byteIs buf c p x = true) : c.begin ≤ p ∧ p < c.end_ := by
  unfold byteIs load at h
  by_cases hh : c.begin ≤ p ∧ p < c.end_
  · exact hh
  · rw [if_neg hh] at h; cases h

theorem skipWhile_budget {buf : List Byte} {c : Cursor} (f : Byte → Bool)
    (hbuf : c.end_ ≤ c.begin + buf.length) {p : Nat} (hp : c.begin ≤ p) (hle : p ≤ c.end_) :
    ∃ q, skipWhile buf f (Cursor.budget { c with current := p }) { c with current := p }
        = .ok () { c with current := q } ∧ MaximalRun buf c f p q := by
  obtain ⟨q, h1, h2⟩ := skipWhile_run (f := f) (Cursor.budget { c with current := p })
    { c with current := p } hbuf hp hle (by simp [Cursor.budget])
  exact ⟨q, h1, h2⟩

/-- The exponent part, from the cursor after the fraction digits. -/
theorem readTextExponent_run {buf : List Byte} {c : Cursor}
    (hbuf : c.end_ ≤ c.begin + buf.length) (p3 : Nat) (hp : c.begin ≤ p3) :
    ((byteIs buf c p3 101 || byteIs buf c p3 69) = false →
      readTextExponent buf { c with current := p3 } = .ok () { c with current := p3 }) ∧
    ((byteIs buf c p3 101 || byteIs buf c p3 69) = true →
      ∃ p5, MaximalRun buf c isdigit (if byteIs buf c (p3 + 1) 45 then p3 + 2 else p3 + 1) p5 ∧
        readTextExponent buf { c with current := p3 } = .ok () { c with current := p5 }) := by
  have ht := testAt_eq_byteIs_or hbuf hp 101 69
  constructor
  · intro h
    unfold readTextExponent
    rw [ht, h]
  · intro h
    have hlt : p3 < c.end_ := by
      rcases (Bool.or_eq_true_iff.1 h) with h | h
      · exact (byteIs_lt h).2
      · exact (byteIs_lt h).2
    have ht2 := testAt_eq_byteIs hbuf (p := p3 + 1) (by omega) 45
    unfold readTextExponent
    rw [ht, h]
    simp only [Cursor.advance]
    rw [ht2]
    cases hm : byteIs buf c (p3 + 1) 45
    · obtain ⟨q, hq, hr⟩ := skipWhile_budget isdigit hbuf (p := p3 + 1) (by omega) (by omega)
      exact ⟨q, by simpa using hr, hq⟩
    · have := (byteIs_lt hm).2
      obtain ⟨q, hq, hr⟩ := skipWhile_budget isdigit hbuf (p := p3 + 1 + 1) (by omega) (by omega)
      exact ⟨q, by simpa using hr, hq⟩


/-- Claim C10 is false for a `+` sign: on the text `1.5e+3` the property returned is of type
`D` with the payload `1.5e`, and the cursor is left on the `+` at offset 4, not after the
literal at offset 6. -/
theorem readTextProperty_plus_exponent :
    readTextProperty samplePlusExponent ⟨0, 0, 6⟩
      = .ok ⟨68, ⟨0, 4, false⟩, 0⟩ ⟨4, 0, 6⟩ ∧
    byteIs samplePlusExponent ⟨0, 0, 6⟩ 4 43 = true ∧
    ¬ ∃ p, readTextProperty samplePlusExponent ⟨0, 0, 6⟩ = .ok p ⟨6, 0, 6⟩ := by
  have h : readTextProperty samplePlusExponent ⟨0, 0, 6⟩
      = .ok ⟨68, ⟨0, 4, false⟩, 0⟩ ⟨4, 0, 6⟩ := by decide
  refine ⟨h, by decide, ?_⟩
  rintro ⟨p, hp⟩
  rw [h] at hp
  cases hp

/-- Claim C10, amended.  At a digit or `-`, `readTextProperty` reads an optional `-` and the
maximal run of digits after it, ending at `p2`.  With no `.` at `p2` it returns type `L`
with the payload `[current, p2)`.  With a `.` it reads the maximal run of fraction digits,
ending at `p3`, and then, only if `e` or `E` is at `p3`, an optional `-` (no `+`) and the
maximal run of digits, ending at `p5`; it returns type `D` whose payload runs from the
cursor to the end of what was read, where it leaves the cursor. -/
theorem readTextProperty_number (buf : List Byte) (c : Cursor) (first : Byte)
    (hbuf : c.end_ ≤ c.begin + buf.length) (hfirst : load buf c c.current = some first)
    (hnum : isdigit first = true ∨ first.val = 45) :
    ∃ p2, MaximalRun buf c isdigit (if first.val = 45 then c.current + 1 else c.current) p2 ∧
      (byteIs buf c p2 46 = false →
        readTextProperty buf c
          = .ok ⟨76, ⟨c.current, p2, false⟩, 0⟩ { c with current := p2 }) ∧
      (byteIs buf c p2 46 = true →
        ∃ p3, MaximalRun buf c isdigit (p2 + 1) p3 ∧
          ((byteIs buf c p3 101 || byteIs buf c p3 69) = false →
            readTextProperty buf c
              = .ok ⟨68, ⟨c.current, p3, false⟩, 0⟩ { c with current := p3 }) ∧
          ((byteIs buf c p3 101 || byteIs buf c p3 69) = true →
            ∃ p5, MaximalRun buf c isdigit
                (if byteIs buf c (p3 + 1) 45 then p3 + 2 else p3 + 1) p5 ∧
              readTextProperty buf c
                = .ok ⟨68, ⟨c.current, p5, false⟩, 0⟩ { c with current := p5 })) := by
  have hin : c.begin ≤ c.current ∧ c.current < c.end_ := by
    unfold load at hfirst
    by_cases hh : c.begin ≤ c.current ∧ c.current < c.end_
    · exact hh
    · rw [if_neg hh] at hfirst; cases hfirst
  have hq : first.val ≠ 34 := by
    rcases hnum with h | h
    · simp only [isdigit, Bool.and_eq_true, decide_eq_true_eq] at h; omega
    · omega
  have hnum' : (isdigit first || decide (first.val = 45)) = true := by
    rcases hnum with h | h
    · simp [h]
    · simp [h]
  have hdef : readTextProperty buf c = readTextNumber buf first c := by
    unfold readTextProperty
    rw [hfirst]
    simp only [if_neg hq, hnum', if_true]
  rw [hdef]
  set p1 := (if first.val = 45 then c.current + 1 else c.current) with hp1
  have hc1 : (if first.val = 45 then c.advance else c) = { c with current := p1 } := by
    rw [hp1]; split <;> rfl
  have hp1b : c.begin ≤ p1 ∧ p1 ≤ c.end_ := by
    rw [hp1]; split <;> omega
  obtain ⟨p2, hs2, hr2⟩ := skipWhile_budget isdigit hbuf hp1b.1 hp1b.2
  refine ⟨p2, hr2, ?_, ?_⟩
  · intro hdot
    unfold readTextNumber
    simp only [hc1, hs2]
    rw [testAt_eq_byteIs hbuf (by have := hr2.1; omega) 46, hdot]
  · intro hdot
    have hlt2 := (byteIs_lt hdot).2
    obtain ⟨p3, hs3, hr3⟩ := skipWhile_budget isdigit hbuf (p := p2 + 1)
      (by have := hr2.1; omega) (by omega)
    have hexp := readTextExponent_run hbuf p3 (by have := hr3.1; have := hr2.1; omega)
    refine ⟨p3, hr3, ?_, ?_⟩
    · intro he
      unfold readTextNumber
      simp only [hc1, hs2]
      rw [testAt_eq_byteIs hbuf (by have := hr2.1; omega) 46, hdot]
      simp only [Cursor.advance, hs3, hexp.1 he]
    · intro he
      obtain ⟨p5, hr5, hs5⟩ := hexp.2 he
      refine ⟨p5, hr5, ?_⟩
      unfold readTextNumber
      simp only [hc1, hs2]
      rw [testAt_eq_byteIs hbuf (by have := hr2.1; omega) 46, hdot]
      simp only [Cursor.advance, hs3, hs5]


theorem readTextProperty_number_witness :
    ∃ p2, MaximalRun sampleMinusExponent ⟨0, 0, 9⟩ isdigit
        (if (45 : Byte).val = 45 then 0 + 1 else 0) p2 ∧
      (byteIs sampleMinusExponent ⟨0, 0, 9⟩ p2 46 = false →
        readTextProperty sampleMinusExponent ⟨0, 0, 9⟩
          = .ok ⟨76, ⟨0, p2, false⟩, 0⟩ { (⟨0, 0, 9⟩ : Cursor) with current := p2 }) ∧
      (byteIs sampleMinusExponent ⟨0, 0, 9⟩ p2 46 = true →
        ∃ p3, MaximalRun sampleMinusExponent ⟨0, 0, 9⟩ isdigit (p2 + 1) p3 ∧
          ((byteIs sampleMinusExponent ⟨0, 0, 9⟩ p3 101
              || byteIs sampleMinusExponent ⟨0, 0, 9⟩ p3 69) = false →
            readTextProperty sampleMinusExponent ⟨0, 0, 9⟩
              = .ok ⟨68, ⟨0, p3, false⟩, 0⟩ { (⟨0, 0, 9⟩ : Cursor) with current := p3 }) ∧
          ((byteIs sampleMinusExponent ⟨0, 0, 9⟩ p3 101
              || byteIs sampleMinusExponent ⟨0, 0, 9⟩ p3 69) = true →
            ∃ p5, MaximalRun sampleMinusExponent ⟨0, 0, 9⟩ isdigit
                (if byteIs sampleMinusExponent ⟨0, 0, 9⟩ (p3 + 1) 45 then p3 + 2
                  else p3 + 1) p5 ∧
              readTextProperty sampleMinusExponent ⟨0, 0, 9⟩
                = .ok ⟨68, ⟨0, p5, false⟩, 0⟩
                    { (⟨0, 0, 9⟩ : Cursor) with current := p5 })) :=
  readTextProperty_number sampleMinusExponent ⟨0, 0, 9⟩ 45 (by decide) (by decide)
    (Or.inr (by decide))

theorem decodeIndex_eq_decode {v : Int} (h1 : -2 ^ 31 ≤ v) (h2 : v < 2 ^ 31) :
    decodeIndex v = decode v ∧ 0 ≤ decode v := by
  unfold decodeIndex decode wrap32
  by_cases hv : v < 0
  · rw [if_pos hv, if_neg (by omega)]
    constructor <;> omega
  · rw [if_neg hv, if_pos (by omega)]
    exact ⟨rfl, by omega⟩

/-- With no negative index the loop of `splat` and `remap` does what the spec says. -/
theorem gather_of_nonneg {α : Type} [Inhabited α] (data : List α) :
    ∀ (indices : List Int), (∀ i ∈ indices, 0 ≤ i) →
      gather data indices = .done (indices.map (pick data)) := by
  intro indices
  induction indices with
  | nil => intro _; rfl
  | cons i rest ih =>
    intro h
    have hi : 0 ≤ i := h i (List.mem_cons_self _ _)
    have hrest := ih (fun j hj => h j (List.mem_cons_of_mem _ hj))
    unfold gather
    by_cases hlt : i < (data.length : Int)
    · rw [if_pos hlt]
      have hn : i.toNat < data.length := by omega
      have he : elemAt data i = some data[i.toNat] := by
        unfold elemAt
        rw [if_pos hi]
        exact List.getElem?_eq_getElem hn
      rw [he, hrest]
      simp only [List.map_cons, pick, if_pos (And.intro hi hlt)]
      rw [List.getElem?_eq_getElem hn]
      rfl
    · rw [if_neg hlt, hrest]
      simp only [List.map_cons, pick]
      rw [if_neg (fun h => hlt h.2)]

/-- Claim C12, at a failing input.  With `data` of length 3 and `indices = [2, -1, 9]`,
`splat` by polygon vertex passes the test `indices[i] < data_size` for the index `-1` and
reads `data[-1]`, outside the vector, instead of storing the default value. -/
theorem splat_negative_index_reads_out_of_range :
    splat ([] : List Nat) .BY_POLYGON_VERTEX [10, 11, 12] [2, -1, 9] []
      = .fault .outOfBounds := by
  decide

/-- The part of claim C12 that holds: with no negative index, `out[i]` is `data[indices[i]]`
or the default value; and with empty `indices`, `out` is a copy of `data`. -/
theorem splat_by_polygon_vertex_nonneg {α : Type} [Inhabited α] (out data : List α)
    (indices oi : List Int) (hd : data ≠ []) (hi : ∀ i ∈ indices, 0 ≤ i) :
    (indices ≠ [] →
      splat out .BY_POLYGON_VERTEX data indices oi = .done (indices.map (pick data))) ∧
    splat out .BY_POLYGON_VERTEX data [] oi = .done data := by
  constructor
  · intro hne
    unfold splat
    cases indices with
    | nil => exact absurd rfl hne
    | cons i rest =>
      simp only [List.isEmpty_cons, Bool.false_eq_true, if_false]
      exact gather_of_nonneg data _ hi
  · unfold splat
    cases data with
    | nil => exact absurd rfl hd
    | cons x xs => simp

/-- Claim C13.  In by-vertex mode, for every `data` (non-empty in particular), empty
`indices` and 32-bit values `original_indices`, `splat` produces `out` of the length of
`original_indices` with `out[i] = data[decode(original_indices[i])]` when the decoded index
is below the length of `data` and the default value otherwise, `decode(v)` being `v` for
`v >= 0` and `-v - 1` for `v < 0` (never negative). -/
theorem splat_by_vertex {α : Type} [Inhabited α] (out data : List α)
    (original_indices : List Int)
    (hr : ∀ v ∈ original_indices, -2 ^ 31 ≤ v ∧ v < 2 ^ 31) :
    splat out .BY_VERTEX data [] original_indices
        = .done (original_indices.map (fun v => pick data (decode v))) ∧
      (∀ v ∈ original_indices, 0 ≤ decode v) := by
  have hall : ∀ v ∈ original_indices, decodeIndex v = decode v ∧ 0 ≤ decode v :=
    fun v hv => decodeIndex_eq_decode (hr v hv).1 (hr v hv).2
  refine ⟨?_, fun v hv => (hall v hv).2⟩
  unfold splat
  simp only
  have hmap : original_indices.map decodeIndex = original_indices.map decode :=
    List.map_congr_left (fun v hv => (hall v hv).1)
  rw [hmap, gather_of_nonneg]
  · rw [List.map_map]; rfl
  · intro i hi
    obtain ⟨v, hv, rfl⟩ := List.mem_map.1 hi
    exact (hall v hv).2

theorem splat_by_vertex_witness :
    splat ([] : List Nat) .BY_VERTEX [10, 11, 12] [] [0, -3]
        = .done ([0, -3].map (fun v => pick [10, 11, 12] (decode v))) ∧
      (∀ v ∈ [(0 : Int), -3], 0 ≤ decode v) :=
  splat_by_vertex [] [10, 11, 12] [0, -3] (by decide)

/-- Claim C14, at a failing input.  With `out = [a, b, c]` and `map = [2, -1, 5]`, `remap`
passes the test `map[i] < old_size` for the entry `-1` and reads `old[-1]`, outside the
vector, instead of pushing the default value. -/
theorem remap_negative_entry_reads_out_of_range :
    remap ([10, 11, 12] : List Nat) [2, -1, 5] = .fault .outOfBounds := by
  decide

/-- The part of claim C14 that holds: with no negative entry, `out[i]` is `old[map[i]]` or
the default value; and an empty `out` stays empty. -/
theorem remap_nonneg {α : Type} [Inhabited α] (out : List α) (map : List Int)
    (hi : ∀ i ∈ map, 0 ≤ i) :
    (out ≠ [] → remap out map = .done (map.map (pick out))) ∧
    remap ([] : List α) map = .done [] := by
  constructor
  · intro hne
    unfold remap
    cases out with
    | nil => exact absurd rfl hne
    | cons x xs =>
      simp only [List.isEmpty_cons, Bool.false_eq_true, if_false]
      exact gather_of_nonneg _ _ hi
  · rfl

/-- Claim C16, at a failing input.  For an element `A` whose sibling `B` has a property and a
child `C`, `deleteElement(A)` frees the elements `A` and `B` only: the property of `B` and
the element `C`, both reachable from `A`, are left undeleted.  A null target frees
nothing. -/
theorem deleteElement_leaves_sibling_subtree :
    deleteElement sampleSiblings = [.element ⟨1, 2, true⟩, .element ⟨3, 4, true⟩] ∧
    Freed.property ⟨67, ⟨5, 6, true⟩, 0⟩ ∈ sampleSiblings.owned ∧
    Freed.property ⟨67, ⟨5, 6, true⟩, 0⟩ ∉ deleteElement sampleSiblings ∧
    Freed.element ⟨7, 8, true⟩ ∈ sampleSiblings.owned ∧
    Freed.element ⟨7, 8, true⟩ ∉ deleteElement sampleSiblings ∧
    deleteElement .null = [] := by
  decide

/-- Claim C19, at a failing input.  On the text `A: 1`, whose property list runs up to the
buffer end, `readTextElement` leaves its property loop with the cursor at the end and then
tests `*cursor.current == '{'` with no comparison against `cursor.end`: the byte at the end
of the buffer is read. -/
theorem tokenizeText_reads_at_end :
    readTextProperties sampleNoNewline 3 ⟨3, 0, 4⟩
      = .ok [⟨76, ⟨3, 4, false⟩, 0⟩] ⟨4, 0, 4⟩ ∧
    load sampleNoNewline ⟨4, 0, 4⟩ 4 = none ∧
    tokenizeText sampleNoNewline 0 = .fault .outOfBounds := by
  decide

theorem countCorners_drop (indices : List Int) (t : Nat)
    (hneg : ∃ x, indices[t]? = some x ∧ x < 0) :
    ∀ (d s : Nat) (count : Int), s + d = t →
      (∀ k, s ≤ k → k < t → ∃ x, indices[k]? = some x ∧ 0 ≤ x) →
      countCorners (indices.drop s) count = .done (count + d) := by
  intro d
  induction d with
  | zero =>
    intro s count hs _
    obtain ⟨x, hx, hlt⟩ := hneg
    have hs2 : s = t := by omega
    subst hs2
    obtain ⟨hl, hx2⟩ := List.getElem?_eq_some.1 hx
    rw [List.drop_eq_getElem_cons hl, hx2]
    unfold countCorners
    rw [if_neg (by omega)]
    simp
  | succ d ih =>
    intro s count hs hpos
    obtain ⟨x, hx, hge⟩ := hpos s (Nat.le_refl _) (by omega)
    obtain ⟨hl, hx2⟩ := List.getElem?_eq_some.1 hx
    rw [List.drop_eq_getElem_cons hl, hx2]
    unfold countCorners
    rw [if_pos hge, ih (s + 1) (count + 1) (by omega) (fun k h1 h2 => hpos k (by omega) h2)]
    congr 1
    push_cast
    omega

/-- Claim C15, at a counterexample.  On `[0, -2, 3, 4, -6]` with `idx = 0` the first negative
entry at or after `idx` is at position 1, so the claim gives 0 and `idx = 2`;
`getTriCountFromPoly` starts looking at position `idx + 2`, returns 3 and sets `idx` to 5. -/
theorem getTriCountFromPoly_two_corner_polygon :
    ([0, -2, 3, 4, -6] : List Int)[0]? = some 0 ∧
    ([0, -2, 3, 4, -6] : List Int)[1]? = some (-2) ∧
    getTriCountFromPoly [0, -2, 3, 4, -6] 0 = .done (3, 5) ∧
    getTriCountFromPoly [0, -2, 3, 4, -6] 0 ≠ .done (0, 2) := by
  decide

/-- Claim C15, amended.  When `t` is the position of the first negative entry at or after
`idx + 2` (the polygon that starts at `idx` has at least three corners and ends at `t`),
`getTriCountFromPoly` returns `t - idx - 1`, the number of corners beyond the first two, and
sets `idx` to `t + 1`, one past that negative entry. -/
theorem getTriCountFromPoly_spec (indices : List Int) (idx t : Nat) (h2 : idx + 2 ≤ t)
    (hneg : ∃ x, indices[t]? = some x ∧ x < 0)
    (hpos : ∀ k, idx + 2 ≤ k → k < t → ∃ x, indices[k]? = some x ∧ 0 ≤ x) :
    getTriCountFromPoly indices idx = .done ((t : Int) - idx - 1, (t : Int) + 1) := by
  unfold getTriCountFromPoly
  rw [if_neg (by omega)]
  have hn : ((idx : Int) + 2).toNat = idx + 2 := by omega
  rw [hn, countCorners_drop indices t hneg (t - (idx + 2)) (idx + 2) 1 (by omega) hpos]
  simp only [Result.done.injEq, Prod.mk.injEq]
  constructor <;> omega

theorem getTriCountFromPoly_spec_witness :
    getTriCountFromPoly [0, 1, 2, -4, 5, 6, 7, -9] (0 : Nat)
      = .done (((3 : Nat) : Int) - (0 : Nat) - 1, ((3 : Nat) : Int) + 1) :=
  getTriCountFromPoly_spec [0, 1, 2, -4, 5, 6, 7, -9] 0 3 (by decide) (by decide)
    (by
      intro k h1 h2
      have : k = 2 := by omega
      subst this
      exact ⟨2, by decide, by decide⟩)

theorem Cursor.Valid.setCurrent {buf : List Byte} {c : Cursor} (hv : c.Valid buf) {q : Nat}
    (h1 : c.current ≤ q) (h2 : q ≤ c.end_) : Cursor.Valid buf { c with current := q } :=
  ⟨hv.1, Nat.le_trans hv.2.1 h1, h2⟩

theorem skipWhile_valid {buf : List Byte} {c : Cursor} (f : Byte → Bool) (hv : c.Valid buf) :
    ∃ q, skipWhile buf f c.budget c = .ok () { c with current := q } ∧
      MaximalRun buf c f c.current q :=
  skipWhile_run c.budget c hv.1 hv.2.1 hv.2.2 (by unfold Cursor.budget; omega)

theorem advanceIfInside_eq (c : Cursor) :
    c.advanceIfInside = { c with current := if c.current < c.end_ then c.current + 1 else c.current } := by
  unfold Cursor.advanceIfInside Cursor.advance
  split <;> rfl

/-- Claim C17, at a counterexample.  On a comment line followed by an empty line
(`;`, newline, newline, `A`) `skipWhitespaces` returns with the cursor on the second
newline, a whitespace character: `skipLine` ends with `skipInsignificantWhitespaces`, which
does not pass a newline, and the second loop of `skipWhitespaces` only tests for `';'`. -/
theorem skipWhitespaces_stops_at_newline :
    skipWhitespaces sampleCommentThenEmptyLine ⟨0, 0, 4⟩ = .ok () ⟨2, 0, 4⟩ ∧
    load sampleCommentThenEmptyLine ⟨0, 0, 4⟩ 2 = some 10 ∧ isspace 10 = true := by
  decide

theorem Inside.mono {lo hi lo2 hi2 : Nat} {l : List DataView} (h : Inside lo hi l)
    (h1 : lo2 ≤ lo) (h2 : hi ≤ hi2) : Inside lo2 hi2 l := by
  intro v hv
  have := h v hv
  omega

theorem Inside.append {lo hi : Nat} {l1 l2 : List DataView} (h1 : Inside lo hi l1)
    (h2 : Inside lo hi l2) : Inside lo hi (l1 ++ l2) := by
  intro v hv
  rcases List.mem_append.1 hv with hv | hv
  · exact h1 v hv
  · exact h2 v hv

theorem Inside.nil (lo hi : Nat) : Inside lo hi [] := by
  intro v hv; cases hv

/-- The payload view of a property lies between the cursor before and the cursor after. -/
theorem readProperty_inside {buf : List Byte} {c c2 : Cursor} {p : Property}
    (h : readProperty buf c = .ok p c2) :
    c.current ≤ p.value.begin ∧ p.value.begin ≤ p.value.end_ ∧
      p.value.end_ ≤ c2.current := by
  obtain ⟨tag, n, -, -, -, hskip, rfl, hb, he, -⟩ := readProperty_ok h
  rw [hb, he]
  simp only
  by_cases ht : tag.val = 83
  · rw [if_pos ht]
    have hn : 4 ≤ n := by
      unfold declaredSkip at hskip
      simp only [ht] at hskip
      norm_num at hskip
      obtain ⟨a, -, ha⟩ := hskip
      omega
    omega
  · rw [if_neg ht]
    omega

theorem inside_properties {buf : List Byte} {count : Nat} :
    ∀ (fuel i : Nat) (c c2 : Cursor) (ps : List Property),
      readProperties buf count fuel i c = .ok ps c2 →
      Inside c.current c2.current (ps.map (fun p => p.value)) := by
  intro fuel
  induction fuel with
  | zero => intro i c c2 ps h; simp [readProperties] at h
  | succ fuel ih =>
    intro i c c2 ps h
    unfold readProperties at h
    split at h
    · split at h
      · rename_i prop c1 hp
        split at h
        · rename_i rest c3 hrest
          cases h
          have h1 := readProperty_inside hp
          have ha1 := (readProperty_ahead hp).1
          have ha2 := readProperties_ahead _ _ _ _ _ hrest
          have h2 := ih _ _ _ _ hrest
          intro v hv
          simp only [List.map_cons, List.mem_cons] at hv
          rcases hv with rfl | hv
          · have := ha2.2.2; omega
          · have := h2 v hv
            have := ha1.2.2
            omega
        all_goals cases h
      all_goals cases h
    · cases h
      exact Inside.nil _ _

theorem inside_head {buf : List Byte} {version : Nat} {c c5 : Cursor}
    {hd : ElementHead} (hh : readElementHead buf version c = .ok (some hd) c5) :
    Inside c.current c5.current (hd.id :: hd.first_property.map (fun p => p.value)) := by
  obtain ⟨-, -, -, h4, h5, -, fuel, h7⟩ := readElementHead_some hh
  have ha := readProperties_ahead _ _ _ _ _ h7
  have hi := inside_properties _ _ _ _ _ h7
  have h3 := ha.2.2
  simp only at h3 hi
  intro v hv
  rcases List.mem_cons.1 hv with rfl | hv
  · omega
  · have := hi v hv
    omega

theorem inside_children (re : Cursor → Step ElemPtr) (limit : Int)
    (H : ∀ c e c1, re c = .ok e c1 →
      c.Ahead c1 ∧ Inside c.current c1.current e.views ∧ e.Single) :
    ∀ (fuel : Nat) (c c2 : Cursor) (e : ElemPtr),
      readChildren re limit fuel c = .ok e c2 →
      c.Ahead c2 ∧ Inside c.current c2.current e.views := by
  intro fuel
  induction fuel with
  | zero => intro c c2 e h; simp [readChildren] at h
  | succ fuel ih =>
    intro c c2 e h
    rcases readChildren_ok h with
      ⟨hlt, rfl, rfl⟩ | ⟨hlt, id, props, ch, sib, c1, rest, hre, hrest, rfl⟩
    · exact ⟨⟨rfl, rfl, Nat.le_refl _⟩, Inside.nil _ _⟩
    · obtain ⟨ha, hw, hs⟩ := H _ _ _ hre
      have hsib : sib = .null := hs
      subst hsib
      obtain ⟨ha2, hw2⟩ := ih _ _ _ hrest
      refine ⟨ha.trans ha2, ?_⟩
      have h12 := ha2.2.2
      have h01 := ha.2.2
      simp only [ElemPtr.views, List.append_nil] at hw ⊢
      have hw' := hw.mono (Nat.le_refl _) h12
      have hw2' := hw2.mono h01 (Nat.le_refl _)
      intro v hv
      rcases List.mem_cons.1 hv with rfl | hv
      · exact hw' _ (List.mem_cons_self _ _)
      · rcases List.mem_append.1 hv with hv | hv
        · exact hw' _ (List.mem_cons_of_mem _ hv)
        · exact hw2' _ hv

theorem inside_element {buf : List Byte} {version : Nat} :
    ∀ (fuel : Nat) (c c2 : Cursor) (e : ElemPtr),
      readElement buf version fuel c = .ok e c2 →
      c.Ahead c2 ∧ Inside c.current c2.current e.views := by
  intro fuel
  induction fuel with
  | zero => intro c c2 e h; simp [readElement] at h
  | succ fuel ih =>
    intro c c2 e h
    rcases readElement_ok h with
      ⟨rfl, hh⟩ | ⟨hd, c1, hh, ⟨hge, rfl, rfl⟩ | ⟨hge, ch, c3, hch, hs, rfl, rfl⟩⟩
    · obtain ⟨-, -, rfl⟩ := readElementHead_none hh
      exact ⟨⟨rfl, rfl, by simp⟩, Inside.nil _ _⟩
    · obtain ⟨ha, -⟩ := readElementHead_some_ahead hh
      refine ⟨ha, ?_⟩
      simpa only [ElemPtr.views, List.append_nil] using inside_head hh
    · obtain ⟨ha, -⟩ := readElementHead_some_ahead hh
      obtain ⟨ha2, hw2⟩ := inside_children _ _
        (fun c e c1 h => ⟨(ih c c1 e h).1, (ih c c1 e h).2, readElement_single h⟩) _ _ _ _ hch
      have h13 := ha2.2.2
      have h01 := ha.2.2
      refine ⟨ha.trans ⟨ha2.1, ha2.2.1, by simp only; omega⟩, ?_⟩
      have hhd := (inside_head hh).mono (Nat.le_refl _)
        (show c1.current ≤ c3.current + blockSentinelLength version by omega)
      have hch' := hw2.mono h01 (show c3.current ≤ c3.current + blockSentinelLength version by omega)
      simp only [ElemPtr.views, List.append_nil]
      intro v hv
      rcases List.mem_cons.1 hv with rfl | hv
      · exact hhd _ (List.mem_cons_self _ _)
      · rcases List.mem_append.1 hv with hv | hv
        · exact hhd _ (List.mem_cons_of_mem _ hv)
        · exact hch' _ hv

theorem inside_tokenizeLoop {buf : List Byte} {version ef : Nat} :
    ∀ (fuel : Nat) (c c2 : Cursor) (e : ElemPtr),
      tokenizeLoop buf version ef fuel c = .ok e c2 →
      c.Ahead c2 ∧ Inside c.current c2.current e.views := by
  intro fuel
  induction fuel with
  | zero => intro c c2 e h; simp [tokenizeLoop] at h
  | succ fuel ih =>
    intro c c2 e h
    rcases tokenizeLoop_ok h with
      ⟨rfl, hre⟩ | ⟨id, props, ch, sib, c1, rest, hre, hrest, rfl⟩
    · exact inside_element _ _ _ _ hre
    · have hsib : sib = .null := readElement_single hre
      subst hsib
      obtain ⟨ha, hw⟩ := inside_element _ _ _ _ hre
      obtain ⟨ha2, hw2⟩ := ih _ _ _ hrest
      refine ⟨ha.trans ha2, ?_⟩
      have h12 := ha2.2.2
      have h01 := ha.2.2
      simp only [ElemPtr.views, List.append_nil] at hw ⊢
      have hw' := hw.mono (Nat.le_refl _) h12
      have hw2' := hw2.mono h01 (Nat.le_refl _)
      intro v hv
      rcases List.mem_cons.1 hv with rfl | hv
      · exact hw' _ (List.mem_cons_self _ _)
      · rcases List.mem_append.1 hv with hv | hv
        · exact hw' _ (List.mem_cons_of_mem _ hv)
        · exact hw2' _ hv

/-- Claim C18.  When `tokenize` returns a root, the name view of every element of the tree
and the payload view of every property of each (the elements hanging from the synthetic
root, whose own name view is the null view and which has no property) lie inside the
buffer, after the header and not after the final cursor:
`data <= view.begin <= view.end <= data + size`; the final cursor is inside the buffer. -/
theorem tokenize_views_inside (buf : List Byte) (data : Nat) (root : ElemPtr)
    (c : Cursor) (h : tokenize buf data = .ok root c) :
    ∃ chain, root = .elem nullView [] chain .null ∧
      c.current ≤ data + buf.length ∧
      ∀ v ∈ chain.views, data ≤ v.begin ∧ data + headerSize ≤ v.begin ∧
        v.begin ≤ v.end_ ∧ v.end_ ≤ c.current ∧ v.end_ ≤ data + buf.length := by
  unfold tokenize at h
  split at h
  · cases h
  · rename_i version hv
    split at h
    · rename_i chain cf hl
      cases h
      obtain ⟨ha, hi⟩ := inside_tokenizeLoop _ _ _ _ hl
      have hend := tokenizeLoop_inside _ _ _ _ hl
      have he := ha.2.1
      simp only [startCursor] at he
      refine ⟨chain, rfl, by omega, ?_⟩
      intro v hv'
      have := hi v hv'
      simp only [startCursor] at this
      omega
    all_goals cases h

theorem tokenize_views_inside_witness :
    ∃ chain, ElemPtr.elem nullView [] (.elem ⟨40, 40, true⟩
        [⟨67, ⟨41, 42, true⟩, 0⟩, ⟨67, ⟨43, 44, true⟩, 0⟩] .null .null) .null
          = .elem nullView [] chain .null ∧
      (⟨48, 0, 48⟩ : Cursor).current ≤ 0 + sampleTwoBools.length ∧
      ∀ v ∈ chain.views, 0 ≤ v.begin ∧ 0 + headerSize ≤ v.begin ∧
        v.begin ≤ v.end_ ∧ v.end_ ≤ (⟨48, 0, 48⟩ : Cursor).current ∧
        v.end_ ≤ 0 + sampleTwoBools.length :=
  tokenize_views_inside sampleTwoBools 0 _ _ (by decide)

/-- A call on a later cursor of the same buffer, seen from the earlier cursor. -/
theorem Step.Returns.from {α : Type} {r : Step α} {c1 c : Cursor} {lo1 lo : Nat}
    (h : r.Returns c1 lo1) (hb : c1.begin = c.begin) (he : c1.end_ = c.end_)
    (hlo : lo ≤ lo1) : r.Returns c lo := by
  cases r with
  | ok v c2 =>
    obtain ⟨h1, h2, h3, h4⟩ := h
    exact ⟨h1.trans hb, h2.trans he, Nat.le_trans hlo h3, he ▸ h4⟩
  | error e c2 => trivial
  | fault f => trivial
  | timeout => exact h

theorem Cursor.Valid.of_eq {buf : List Byte} {c c2 : Cursor} (hv : c.Valid buf)
    (hb : c2.begin = c.begin) (he : c2.end_ = c.end_) (h1 : c.current ≤ c2.current)
    (h2 : c2.current ≤ c.end_) : c2.Valid buf := by
  unfold Cursor.Valid at *
  omega

theorem bytesBetween_self (buf : List Byte) (c : Cursor) (p : Nat) :
    bytesBetween buf c p p = [] := by
  simp [bytesBetween]

theorem bytesBetween_cons {buf : List Byte} {c : Cursor} {p q : Nat} {b : Byte}
    (hl : load buf c p = some b) (hlt : p < q) :
    bytesBetween buf c p q = b :: bytesBetween buf c (p + 1) q := by
  unfold load at hl
  split at hl
  · rename_i hin
    obtain ⟨hlen, hb⟩ := List.getElem?_eq_some.1 hl
    unfold bytesBetween
    rw [List.drop_eq_getElem_cons hlen, hb]
    have h1 : q - p = (q - (p + 1)) + 1 := by omega
    have h2 : p + 1 - c.begin = p - c.begin + 1 := by omega
    rw [h1, List.take_succ_cons, h2]
  · cases hl

/-- The array scan of `readTextProperty` stops at the first `'}'` or at the buffer end, with
its state folded over the bytes before it. -/
theorem scanArray_run {buf : List Byte} :
    ∀ (fuel : Nat) (s : ArrayScan) (c : Cursor), c.Valid buf → c.end_ - c.current < fuel →
      ∃ q, scanArray buf fuel s c
          = .ok ((bytesBetween buf c c.current q).foldl ArrayScan.step s)
              { c with current := q } ∧
        MaximalRun buf c (fun b => b.val ≠ 125) c.current q := by
  intro fuel
  induction fuel with
  | zero => intro s c _ h; omega
  | succ fuel ih =>
    intro s c hv hf
    unfold scanArray
    by_cases hlt : c.current < c.end_
    · rw [if_pos hlt]
      obtain ⟨b, hb⟩ := load_inside hv.1 hv.2.1 hlt
      rw [hb]
      simp only
      by_cases h125 : b.val ≠ 125
      · rw [if_pos h125]
        obtain ⟨q, h1, hle, hend, hall, hstop⟩ := ih (s.step b) c.advance
          (hv.of_eq rfl rfl (by simp [Cursor.advance]) (by simp only [Cursor.advance]; omega))
          (by simp only [Cursor.advance]; omega)
        simp only [Cursor.advance] at h1 hle hend hall hstop
        refine ⟨q, ?_, by omega, hend, ?_, hstop⟩
        · rw [bytesBetween_cons hb (by omega), List.foldl_cons]
          exact h1
        · intro k hk1 hk2
          by_cases hk : k = c.current
          · subst hk
            rw [hb]
            simp [h125]
          · exact hall k hk1 (by omega)
      · rw [if_neg h125]
        refine ⟨c.current, ?_, Nat.le_refl _, hv.2.2, ?_, ?_⟩
        · rw [bytesBetween_self]; rfl
        · intro k hk1 hk2; omega
        · intro _
          rw [hb]
          simp only [Option.map_some', Option.some.injEq]
          simpa using h125
    · rw [if_neg hlt]
      refine ⟨c.current, ?_, Nat.le_refl _, hv.2.2, ?_, ?_⟩
      · rw [bytesBetween_self]; rfl
      · intro k hk1 hk2; omega
      · intro h; omega

theorem Cursor.Valid.advance {buf : List Byte} {c : Cursor} (hv : c.Valid buf)
    (hlt : c.current < c.end_) : c.advance.Valid buf :=
  hv.of_eq rfl rfl (by simp [Cursor.advance]) (by simp only [Cursor.advance]; omega)

theorem load_some_lt {buf : List Byte} {c : Cursor} {p : Nat} {b : Byte}
    (h : load buf c p = some b) : c.begin ≤ p ∧ p < c.end_ := by
  unfold load at h
  by_cases hh : c.begin ≤ p ∧ p < c.end_
  · exact hh
  · rw [if_neg hh] at h; cases h

theorem step_comma (s : ArrayScan) (b : Byte) (h : b.val = 44) :
    s.step b = { type := s.type, count := if s.is_any then s.count + 1 else s.count,
                 is_any := false } := by
  unfold ArrayScan.step
  simp [h]

theorem step_other (s : ArrayScan) (b : Byte) (h : b.val ≠ 44) :
    s.step b = { type := if b.val = 46 then 100 else s.type, count := s.count,
                 is_any := s.is_any || !isspace b } := by
  unfold ArrayScan.step
  have h10 : isspace b = false → b.val ≠ 10 := by
    intro hs h10
    simp [isspace, h10] at hs
  cases hsp : isspace b <;> cases ha : s.is_any <;> by_cases h46 : b.val = 46 <;>
    simp [h, hsp, ha, h46, h10]
  all_goals (cases s; simp_all)

theorem step_insignificant (s : ArrayScan) (b : Byte)
    (h : (isspace b && decide (b.val ≠ 10)) = true) : s.step b = s := by
  have hsp : isspace b = true := (Bool.and_eq_true_iff.1 h).1
  have h44 : b.val ≠ 44 := by
    intro h44
    simp [isspace, h44] at hsp
  have h46 : b.val ≠ 46 := by
    intro h46
    simp [isspace, h46] at hsp
  rw [step_other s b h44]
  cases s
  simp [hsp, h46]

/-- The array scan counts the entries of the spec: its state after a span, against the
comma-separated entries of the span. -/
theorem foldl_step_tally :
    ∀ (l : List Byte) (s : ArrayScan), ∃ seg0 segs, splitAtCommas l = seg0 :: segs ∧
      (if (l.foldl ArrayScan.step s).is_any then (l.foldl ArrayScan.step s).count + 1
        else (l.foldl ArrayScan.step s).count)
        = s.count + (if (s.is_any || nonBlank seg0) = true then 1 else 0)
            + segs.countP nonBlank ∧
      (l.foldl ArrayScan.step s).type = if hasDot l = true then 100 else s.type := by
  intro l
  induction l with
  | nil =>
    intro s
    refine ⟨[], [], rfl, ?_, ?_⟩
    · cases h : s.is_any <;> simp [nonBlank, h]
    · simp [hasDot]
  | cons b rest ih =>
    intro s
    obtain ⟨r0, rs, hsplit, hcount, htype⟩ := ih (s.step b)
    rw [List.foldl_cons]
    have hnil : nonBlank [] = false := rfl
    have hnb : nonBlank (b :: r0) = (!isspace b || nonBlank r0) := by
      simp [nonBlank]
    by_cases h44 : b.val = 44
    · refine ⟨[], r0 :: rs, ?_, ?_, ?_⟩
      · unfold splitAtCommas
        rw [if_pos h44, hsplit]
      · rw [hcount, step_comma s b h44, List.countP_cons, hnil]
        cases ha : s.is_any <;> cases hn : nonBlank r0 <;> simp <;> omega
      · rw [htype, step_comma s b h44]
        have h46 : b.val ≠ 46 := by omega
        simp [hasDot, h46]
    · refine ⟨b :: r0, rs, ?_, ?_, ?_⟩
      · unfold splitAtCommas
        rw [if_neg h44, hsplit]
      · rw [hcount, step_other s b h44, hnb]
        cases ha : s.is_any <;> cases hn : nonBlank r0 <;> cases hsp : isspace b <;> simp
      · rw [htype, step_other s b h44]
        by_cases h46 : b.val = 46
        · simp [hasDot, h46]
        · simp [hasDot, h46]

theorem foldl_step_entries (l : List Byte) :
    (if (l.foldl ArrayScan.step { type := 108, count := 0, is_any := false }).is_any
      then (l.foldl ArrayScan.step { type := 108, count := 0, is_any := false }).count + 1
      else (l.foldl ArrayScan.step { type := 108, count := 0, is_any := false }).count)
        = countEntries l ∧
    (l.foldl ArrayScan.step { type := 108, count := 0, is_any := false }).type
        = if hasDot l = true then 100 else 108 := by
  obtain ⟨seg0, segs, hsplit, hcount, htype⟩ :=
    foldl_step_tally l { type := 108, count := 0, is_any := false }
  refine ⟨?_, htype⟩
  rw [hcount]
  unfold countEntries
  rw [hsplit, List.countP_cons]
  simp only [Bool.false_or, Nat.zero_add]
  omega

/-- Leading insignificant whitespace does not change the state of the array scan. -/
theorem foldl_step_skip_insignificant (buf : List Byte) (c : Cursor) (s : ArrayScan)
    (pb pe : Nat) (hle : pb ≤ pe) :
    ∀ (n a : Nat), a + n = pb →
      (∀ k, k < pb → a ≤ k →
        (load buf c k).map (fun b => isspace b && decide (b.val ≠ 10)) = some true) →
      (bytesBetween buf c a pe).foldl ArrayScan.step s
        = (bytesBetween buf c pb pe).foldl ArrayScan.step s := by
  intro n
  induction n with
  | zero =>
    intro a ha _
    have : a = pb := by omega
    rw [this]
  | succ n ih =>
    intro a ha hall
    have h1 := hall a (by omega) (Nat.le_refl _)
    cases hl : load buf c a with
    | none => rw [hl] at h1; cases h1
    | some b =>
      rw [hl] at h1
      simp only [Option.map_some', Option.some.injEq] at h1
      rw [bytesBetween_cons hl (by omega), List.foldl_cons, step_insignificant s b h1]
      exact ih (a + 1) (by omega) (fun k hk1 hk2 => hall k hk1 (by omega))

/-- Claim C11.  For every cursor on a `'*'` inside the buffer, `readTextProperty` returns an
array property.  With `pc` the first `':'` after the `'*'` (or the buffer end) and `pe` the
first `'}'` after that `':'` (or the buffer end), its `count` is the number of
comma-separated entries of the bytes between them that contain a non-whitespace character,
and its type is `'d'` (100) if a `'.'` occurs among those bytes and `'l'` (108) otherwise.
The value view runs from the first byte after the `':'` that is not an insignificant
whitespace to `pe`, and the cursor is left after the `'}'`. -/
theorem readTextProperty_array (buf : List Byte) (c : Cursor) (hv : c.Valid buf)
    (hstar : byteIs buf c c.current 42 = true) :
    ∃ pc pb pe : Nat,
      MaximalRun buf c (fun b => b.val ≠ 58) (c.current + 1) pc ∧
      MaximalRun buf c (fun b => isspace b && b.val ≠ 10)
        (if pc < c.end_ then pc + 1 else pc) pb ∧
      MaximalRun buf c (fun b => b.val ≠ 125) (if pc < c.end_ then pc + 1 else pc) pe ∧
      readTextProperty buf c
        = .ok { type := if hasDot (bytesBetween buf c (if pc < c.end_ then pc + 1 else pc) pe)
                  = true then 100 else 108,
                value := { begin := pb, end_ := pe, is_binary := false },
                count := countEntries
                  (bytesBetween buf c (if pc < c.end_ then pc + 1 else pc) pe) }
            { c with current := if pe < c.end_ then pe + 1 else pe } := by
  obtain ⟨hb0, hlt⟩ := byteIs_lt hstar
  obtain ⟨first, hl⟩ := load_inside hv.1 hv.2.1 hlt
  have h42 : first = 42 := by
    unfold byteIs at hstar
    rw [hl] at hstar
    exact Fin.ext (by simpa using hstar)
  subst h42
  obtain ⟨pc, h1, hr1⟩ := skipWhile_valid (fun b => b.val ≠ 58) (hv.advance hlt)
  have hr1c : MaximalRun buf c (fun b => b.val ≠ 58) (c.current + 1) pc := hr1
  obtain ⟨hle1, hend1, -, -⟩ := hr1c
  have hv2 : Cursor.Valid buf { c with current := if pc < c.end_ then pc + 1 else pc } :=
    hv.setCurrent (by split <;> omega) (by split <;> omega)
  obtain ⟨pb, h2, hr2⟩ := skipWhile_valid (fun b => isspace b && b.val ≠ 10) hv2
  have hr2c : MaximalRun buf c (fun b => isspace b && b.val ≠ 10)
      (if pc < c.end_ then pc + 1 else pc) pb := hr2
  obtain ⟨hle2, hend2, hall2, -⟩ := hr2c
  have hv3 : Cursor.Valid buf { c with current := pb } :=
    hv.setCurrent (by split at hle2 <;> omega) hend2
  obtain ⟨pe, h3, hr3⟩ :=
    scanArray_run (Cursor.budget { c with current := pb })
      { type := 108, count := 0, is_any := false } { c with current := pb } hv3
      (by unfold Cursor.budget; omega)
  have hr3c : MaximalRun buf c (fun b => b.val ≠ 125) pb pe := hr3
  obtain ⟨hle3, hend3, hall3, hstop3⟩ := hr3c
  have hfold := foldl_step_skip_insignificant buf c
    { type := 108, count := 0, is_any := false } pb pe hle3
    (pb - (if pc < c.end_ then pc + 1 else pc)) (if pc < c.end_ then pc + 1 else pc)
    (by omega) hall2
  obtain ⟨hcount, htype⟩ :=
    foldl_step_entries (bytesBetween buf c (if pc < c.end_ then pc + 1 else pc) pe)
  rw [hfold] at hcount htype
  refine ⟨pc, pb, pe, hr1, hr2, ⟨by omega, hend3, ?_, hstop3⟩, ?_⟩
  · intro k hk1 hk2
    by_cases hk : k < pb
    · have := hall2 k hk hk2
      cases hlk : load buf c k with
      | none => rw [hlk] at this; cases this
      | some b =>
        rw [hlk] at this
        simp only [Option.map_some', Option.some.injEq] at this ⊢
        have hsp : isspace b = true := (Bool.and_eq_true_iff.1 this).1
        have h125 : b.val ≠ 125 := by
          intro h125
          simp [isspace, h125] at hsp
        simpa using h125
    · exact hall3 k hk1 (by omega)
  · simp only [Cursor.advance] at h1 h2
    rw [show bytesBetween buf { c with current := pb } pb pe = bytesBetween buf c pb pe
      from rfl] at h3
    unfold readTextProperty
    rw [hl]
    simp only
    rw [if_neg (by decide), if_neg (by decide), if_neg (by decide), if_pos (by decide)]
    unfold readTextArray skipInsignificantWhitespaces
    simp only [Cursor.advance, advanceIfInside_eq, h1, h2, h3, hcount, htype]

theorem readTextProperty_array_witness :
    ∃ pc pb pe : Nat,
      MaximalRun sampleArray ⟨0, 0, 21⟩ (fun b => b.val ≠ 58) ((⟨0, 0, 21⟩ : Cursor).current + 1)
        pc ∧
      MaximalRun sampleArray ⟨0, 0, 21⟩ (fun b => isspace b && b.val ≠ 10)
        (if pc < (⟨0, 0, 21⟩ : Cursor).end_ then pc + 1 else pc) pb ∧
      MaximalRun sampleArray ⟨0, 0, 21⟩ (fun b => b.val ≠ 125)
        (if pc < (⟨0, 0, 21⟩ : Cursor).end_ then pc + 1 else pc) pe ∧
      readTextProperty sampleArray ⟨0, 0, 21⟩
        = .ok { type := if hasDot (bytesBetween sampleArray ⟨0, 0, 21⟩
                    (if pc < (⟨0, 0, 21⟩ : Cursor).end_ then pc + 1 else pc) pe)
                  = true then 100 else 108,
                value := { begin := pb, end_ := pe, is_binary := false },
                count := countEntries (bytesBetween sampleArray ⟨0, 0, 21⟩
                    (if pc < (⟨0, 0, 21⟩ : Cursor).end_ then pc + 1 else pc) pe) }
            { (⟨0, 0, 21⟩ : Cursor) with
              current := if pe < (⟨0, 0, 21⟩ : Cursor).end_ then pe + 1 else pe } :=
  readTextProperty_array sampleArray ⟨0, 0, 21⟩ (by decide) (by decide)

/-- The sample of claim C11, evaluated: 3 entries counted out of 4, type `'d'`. -/
theorem readTextProperty_array_sample :
    readTextProperty sampleArray ⟨0, 0, 21⟩
      = .ok { type := 100, value := { begin := 8, end_ := 18, is_binary := false },
              count := 3 } ⟨19, 0, 21⟩ ∧
    countEntries (bytesBetween sampleArray ⟨0, 0, 21⟩ 7 18) = 3 ∧
    (splitAtCommas (bytesBetween sampleArray ⟨0, 0, 21⟩ 7 18)).length = 4 := by
  decide

theorem loadLE_inside {buf : List Byte} {c : Cursor} (hbuf : c.end_ ≤ c.begin + buf.length) :
    ∀ (n p : Nat), c.begin ≤ p → p + n ≤ c.end_ → ∃ v, loadLE buf c p n = some v := by
  intro n
  induction n with
  | zero => intro p _ _; exact ⟨0, rfl⟩
  | succ n ih =>
    intro p h1 h2
    obtain ⟨b, hb⟩ := load_inside hbuf h1 (show p < c.end_ by omega)
    obtain ⟨v, hv⟩ := ih (p + 1) (by omega) (by omega)
    exact ⟨b.val + 256 * v, by simp only [loadLE, hb, hv]⟩

theorem readLongString_eq_ok {buf : List Byte} {c : Cursor} {len : Nat}
    (hl : loadLE buf c c.current 4 = some len) (hfit : c.current + 4 + len ≤ c.end_) :
    readLongString buf c
      = .ok { begin := c.current + 4, end_ := c.current + 4 + len, is_binary := true }
          { c with current := c.current + 4 + len } := by
  unfold readLongString
  rw [read_eq_ok (by omega) hl]
  simp only
  rw [if_neg (by omega)]

theorem readRaw_eq_ok {buf : List Byte} {c : Cursor} {len : Nat} (t : Nat)
    (hl : loadLE buf c c.current 4 = some len) (hfit : c.current + 4 + len ≤ c.end_) :
    readRaw buf t c
      = .ok { type := t,
              value := { begin := c.current, end_ := c.current + 4 + len, is_binary := true },
              count := 0 }
          { c with current := c.current + 4 + len } := by
  unfold readRaw
  rw [read_eq_ok (by omega) hl]
  simp only
  rw [if_neg (by omega)]
  rfl

theorem readArrayBlock_eq_ok {buf : List Byte} {c : Cursor} {len : Nat} (t : Nat)
    (hbuf : c.end_ ≤ c.begin + buf.length) (hb : c.begin ≤ c.current)
    (hl : loadLE buf c (c.current + 8) 4 = some len) (hfit : c.current + 12 + len ≤ c.end_) :
    readArrayBlock buf t c
      = .ok { type := t,
              value := { begin := c.current, end_ := c.current + 12 + len, is_binary := true },
              count := 0 }
          { c with current := c.current + 12 + len } := by
  obtain ⟨v1, h1⟩ := loadLE_inside hbuf 4 c.current hb (by omega)
  obtain ⟨v2, h2⟩ := loadLE_inside hbuf 4 (c.current + 4) (by omega) (by omega)
  have r1 := read_eq_ok (show c.current + 4 ≤ c.end_ by omega) h1
  have r2 : read buf 4 { c with current := c.current + 4 }
      = .ok v2 { c with current := c.current + 4 + 4 } :=
    read_eq_ok (by simp only; omega) (by simpa using h2)
  have r3 : read buf 4 { c with current := c.current + 4 + 4 }
      = .ok len { c with current := c.current + 4 + 4 + 4 } :=
    read_eq_ok (by simp only; omega) (by simpa using hl)
  unfold readArrayBlock
  simp only [r1, Step.cursorD, r2, r3]
  rw [if_neg (by omega)]
  rfl

/-- Claim C3.  With a byte `tag` at the cursor, `readProperty` fails with the
unknown-property-type message when `tag` is none of `S Y C I F D L R b f d l i`; when it
succeeds, `tag` is one of them, the property has `tag` as its type, and the cursor has
moved by `1 + n` bytes, `n` being `2 1 4 4 8 8` for `Y C I F D L`, `4 +` the declared 32-bit
length for `S R`, and `12 +` the declared compressed length for `b f d l i`; and it does
succeed, with that type and that cursor, for each of the thirteen tags: always for
`Y C I F D L`, and for the others when the `1 + n` bytes are inside the buffer. -/
theorem readProperty_tag_and_length (buf : List Byte) (c : Cursor) (tag : Byte)
    (htag : load buf c c.current = some tag) :
    (tag.val ∉ propertyTags →
      readProperty buf c = .error .unknownPropertyType { c with current := c.current + 1 }) ∧
    (∀ p c2, readProperty buf c = .ok p c2 →
      tag.val ∈ propertyTags ∧ p.type = tag.val ∧
      ∃ n, declaredSkip buf c tag.val = some n ∧ c2.current = c.current + 1 + n) ∧
    (∀ n, declaredSkip buf c tag.val = some n →
      (tag.val ∈ [89, 67, 73, 70, 68, 76] ∨
        (c.end_ ≤ c.begin + buf.length ∧ c.current + 1 + n ≤ c.end_)) →
      ∃ p, readProperty buf c = .ok p { c with current := c.current + 1 + n } ∧
        p.type = tag.val) := by
  have hin := load_some_lt htag
  have hne : c.current ≠ c.end_ := by omega
  refine ⟨?_, ?_, ?_⟩
  · intro hnot
    unfold readProperty
    rw [if_neg hne, htag]
    simp only [propertyTags, List.mem_cons, List.mem_singleton, List.not_mem_nil,
      not_or, or_false] at hnot
    obtain ⟨h1, h2, h3, h4, h5, h6, h7, h8, h9, h10, h11, h12, h13⟩ := hnot
    simp only
  · intro p c2 h
    obtain ⟨tg, n, ht, hmem, hty, hskip, rfl, -⟩ := readProperty_ok h
    rw [htag] at ht
    cases ht
    exact ⟨hmem, hty, n, hskip, rfl⟩
  · intro n hskip hor
    unfold declaredSkip at hskip
    unfold readProperty
    rw [if_neg hne, htag]
    simp only
    split at hskip
    · rename_i hk; cases hskip; simp only [hk]; exact ⟨_, rfl, rfl⟩
    split at hskip
    · rename_i hk; cases hskip; simp only [hk]; exact ⟨_, rfl, rfl⟩
    split at hskip
    · rename_i hk
      cases hskip
      rcases hk with hk | hk <;> simp only [hk] <;> exact ⟨_, rfl, rfl⟩
    split at hskip
    · rename_i hk
      cases hskip
      rcases hk with hk | hk <;> simp only [hk] <;> exact ⟨_, rfl, rfl⟩
    have hfit : c.end_ ≤ c.begin + buf.length ∧ c.current + 1 + n ≤ c.end_ := by
      rcases hor with hfix | hfit
      · simp only [List.mem_cons, List.mem_singleton, List.not_mem_nil, or_false] at hfix
        omega
      · exact hfit
    split at hskip
    · rename_i hk
      obtain ⟨len, hlen, rfl⟩ := Option.map_eq_some'.1 hskip
      have e : c.current + 1 + (4 + len) = c.current + 1 + 4 + len := by omega
      have hl : loadLE buf { c with current := c.current + 1 }
          ({ c with current := c.current + 1 } : Cursor).current 4 = some len := by
        simpa using hlen
      rcases hk with hk | hk
      · simp only [hk]
        rw [readLongString_eq_ok hl (by simp only; omega), e]
        exact ⟨_, rfl, rfl⟩
      · simp only [hk]
        rw [readRaw_eq_ok 82 hl (by simp only; omega), e]
        exact ⟨_, rfl, rfl⟩
    split at hskip
    · rename_i hk
      obtain ⟨len, hlen, rfl⟩ := Option.map_eq_some'.1 hskip
      have e : c.current + 1 + (12 + len) = c.current + 1 + 12 + len := by omega
      have hl : loadLE buf { c with current := c.current + 1 }
          (({ c with current := c.current + 1 } : Cursor).current + 8) 4 = some len := by
        simpa using hlen
      have hb1 : ({ c with current := c.current + 1 } : Cursor).begin
          ≤ ({ c with current := c.current + 1 } : Cursor).current := by
        simp only; omega
      rcases hk with hk | hk | hk | hk | hk
      all_goals
        simp only [hk]
        rw [@readArrayBlock_eq_ok buf { c with current := c.current + 1 } len _ hfit.1 hb1 hl
          (by simp only; omega), e]
        exact ⟨_, rfl, rfl⟩
    · cases hskip

theorem readProperty_tag_and_length_witness :
    readProperty [90, 0] ⟨0, 0, 2⟩
        = .error .unknownPropertyType { (⟨0, 0, 2⟩ : Cursor) with current := 0 + 1 } ∧
    ((82 : Byte).val ∈ propertyTags ∧ (82 : Nat) = (82 : Byte).val ∧
      ∃ n, declaredSkip [82, 2, 0, 0, 0, 7, 7] ⟨0, 0, 7⟩ (82 : Byte).val = some n ∧
        7 = 0 + 1 + n) ∧
    (∃ p, readProperty [82, 2, 0, 0, 0, 7, 7] ⟨0, 0, 7⟩
        = .ok p { (⟨0, 0, 7⟩ : Cursor) with current := 0 + 1 + 6 } ∧
      p.type = (82 : Byte).val) :=
  ⟨(readProperty_tag_and_length [90, 0] ⟨0, 0, 2⟩ 90 (by decide)).1 (by decide),
   (readProperty_tag_and_length [82, 2, 0, 0, 0, 7, 7] ⟨0, 0, 7⟩ 82 (by decide)).2.1
      ⟨82, ⟨1, 7, true⟩, 0⟩ ⟨7, 0, 7⟩ (by decide),
   (readProperty_tag_and_length [82, 2, 0, 0, 0, 7, 7] ⟨0, 0, 7⟩ 82 (by decide)).2.2
      6 (by decide) (Or.inr (by decide))⟩

theorem CommentLines_setCurrent (buf : List Byte) (c : Cursor) (x : Nat) :
    ∀ (lines : List (Nat × Nat)) (p q : Nat),
      CommentLines buf { c with current := x } lines p q ↔ CommentLines buf c lines p q := by
  intro lines
  induction lines with
  | nil => intro p q; exact Iff.rfl
  | cons l rest ih =>
    intro p q
    obtain ⟨e, s⟩ := l
    unfold CommentLines
    rw [ih s q]
    exact Iff.rfl

theorem CommentLines_end {buf : List Byte} {c : Cursor} :
    ∀ (lines : List (Nat × Nat)) (p q : Nat), CommentLines buf c lines p q →
      byteIs buf c q 59 = false := by
  intro lines
  induction lines with
  | nil =>
    intro p q h
    obtain ⟨rfl, h2⟩ := h
    exact h2
  | cons l rest ih =>
    intro p q h
    obtain ⟨e, s⟩ := l
    exact ih s q h.2.2.2

/-- The function `skipLine` passes one line: up to the first newline or the buffer end,
then over that newline and the insignificant whitespace after it. -/
theorem skipLine_line {buf : List Byte} {c : Cursor} (hv : c.Valid buf) :
    ∃ e s, MaximalRun buf c (fun b => b.val ≠ 10) c.current e ∧
      MaximalRun buf c (fun b => isspace b && b.val ≠ 10) (if e < c.end_ then e + 1 else e) s ∧
      skipLine buf c = .ok () { c with current := s } := by
  obtain ⟨e, h1, hr1⟩ := skipWhile_valid (fun b => b.val ≠ 10) hv
  have hr1c := hr1
  obtain ⟨hle1, hend1, -, -⟩ := hr1c
  have hv2 : Cursor.Valid buf { c with current := if e < c.end_ then e + 1 else e } :=
    hv.setCurrent (by split <;> omega) (by split <;> omega)
  obtain ⟨s, h2, hr2⟩ := skipWhile_valid (fun b => isspace b && b.val ≠ 10) hv2
  refine ⟨e, s, hr1, hr2, ?_⟩
  unfold skipLine
  rw [h1]
  simp only [advanceIfInside_eq]
  unfold skipInsignificantWhitespaces
  exact h2

theorem skipComments_lines {buf : List Byte} :
    ∀ (fuel : Nat) (c : Cursor), c.Valid buf → c.end_ - c.current < fuel →
      ∃ lines q, CommentLines buf c lines c.current q ∧
        skipComments buf fuel c = .ok () { c with current := q } ∧ c.current ≤ q ∧
        q ≤ c.end_ ∧
        (lines ≠ [] → q < c.end_ →
          (load buf c q).map (fun b => isspace b && b.val ≠ 10) = some false) := by
  intro fuel
  induction fuel with
  | zero => intro c _ h; omega
  | succ fuel ih =>
    intro c hv hf
    have ht : testAt buf c (fun b => decide (b.val = 59)) = some (byteIs buf c c.current 59) :=
      testAt_eq_byteIs hv.1 hv.2.1 59
    unfold skipComments
    rw [ht]
    cases hb : byteIs buf c c.current 59 with
    | true =>
      have hlt := (byteIs_lt hb).2
      obtain ⟨e, s, hr1, hr2, h1⟩ := skipLine_line hv
      have hle1 := hr1.1
      have hend1 := hr1.2.1
      have hle2 := hr2.1
      have hend2 := hr2.2.1
      have hstop2 := hr2.2.2.2
      have hs : c.current < s := by split at hle2 <;> omega
      obtain ⟨lines, q, hcl, h2, hle3, hend3, hstop3⟩ :=
        ih { c with current := s } (hv.setCurrent (by omega) hend2) (by simp only; omega)
      simp only at hle3 hend3
      simp only [h1]
      refine ⟨(e, s) :: lines, q, ?_, h2, by omega, hend3, ?_⟩
      · exact ⟨hb, hr1, hr2, (CommentLines_setCurrent buf c s lines s q).1 hcl⟩
      · intro _ hq
        cases lines with
        | nil =>
          have hqs : q = s := hcl.1
          rw [hqs]
          exact hstop2 (by omega)
        | cons l rest => exact hstop3 (by simp) hq
    | false =>
      exact ⟨[], c.current, ⟨rfl, hb⟩, rfl, Nat.le_refl _, hv.2.2, fun h => absurd rfl h⟩

/-- Claim C17, amended.  For every cursor with `begin <= current <= end` over the buffer,
`skipWhitespaces` returns with the cursor moved forward to `q`: it passes the maximal run
of whitespace characters, up to `q1`, and then the comment lines that begin there, one after
another (`lines`).  The cursor is left at the buffer end or on a byte that is not `';'`;
that byte is no whitespace character unless a comment line was passed, and then it is no
whitespace character other than a newline. -/
theorem skipWhitespaces_stops (buf : List Byte) (c : Cursor) (hv : c.Valid buf) :
    ∃ q1 lines q, MaximalRun buf c isspace c.current q1 ∧ CommentLines buf c lines q1 q ∧
      skipWhitespaces buf c = .ok () { c with current := q } ∧ c.current ≤ q ∧ q ≤ c.end_ ∧
      (q = c.end_ ∨ ∃ b, load buf c q = some b ∧ b.val ≠ 59 ∧
        (isspace b = true → b.val = 10 ∧ lines ≠ [])) := by
  obtain ⟨q1, h1, hr1⟩ := skipWhile_valid isspace hv
  have hle1 := hr1.1
  have hend1 := hr1.2.1
  have hstop1 := hr1.2.2.2
  obtain ⟨lines, q, hcl, h2, hle2, hend2, hstop2⟩ :=
    skipComments_lines (Cursor.budget { c with current := q1 }) { c with current := q1 }
      (hv.setCurrent hle1 hend1) (by unfold Cursor.budget; omega)
  simp only at hle2 hend2
  have hcl2 := (CommentLines_setCurrent buf c q1 lines q1 q).1 hcl
  refine ⟨q1, lines, q, hr1, hcl2, ?_, by omega, hend2, ?_⟩
  · unfold skipWhitespaces
    rw [h1]
    exact h2
  · by_cases hq : q = c.end_
    · exact Or.inl hq
    · right
      have hlt : q < c.end_ := by omega
      obtain ⟨b, hb⟩ := load_inside hv.1 (show c.begin ≤ q from by have := hv.2.1; omega) hlt
      have h59 := CommentLines_end lines q1 q hcl2
      refine ⟨b, hb, ?_, ?_⟩
      · unfold byteIs at h59
        rw [hb] at h59
        simpa using h59
      · intro hsp
        cases lines with
        | nil =>
          have hq1 : q = q1 := hcl2.1
          have := hstop1 (by omega)
          rw [← hq1, hb] at this
          simp only [Option.map_some', Option.some.injEq] at this
          rw [this] at hsp
          cases hsp
        | cons l rest =>
          have := hstop2 (by simp) hlt
          simp only [load_setCurrent] at this
          rw [hb] at this
          simp only [Option.map_some', Option.some.injEq, Bool.and_eq_false_imp, hsp,
            true_implies] at this
          exact ⟨by simpa using this, by simp⟩

theorem skipWhitespaces_stops_witness :
    ∃ q1 lines q,
      MaximalRun sampleCommentThenEmptyLine ⟨0, 0, 4⟩ isspace (⟨0, 0, 4⟩ : Cursor).current q1 ∧
      CommentLines sampleCommentThenEmptyLine ⟨0, 0, 4⟩ lines q1 q ∧
      skipWhitespaces sampleCommentThenEmptyLine ⟨0, 0, 4⟩
        = .ok () { (⟨0, 0, 4⟩ : Cursor) with current := q } ∧
      (⟨0, 0, 4⟩ : Cursor).current ≤ q ∧ q ≤ (⟨0, 0, 4⟩ : Cursor).end_ ∧
      (q = (⟨0, 0, 4⟩ : Cursor).end_ ∨
        ∃ b, load sampleCommentThenEmptyLine ⟨0, 0, 4⟩ q = some b ∧ b.val ≠ 59 ∧
          (isspace b = true → b.val = 10 ∧ lines ≠ [])) :=
  skipWhitespaces_stops sampleCommentThenEmptyLine ⟨0, 0, 4⟩ (by decide)

/-- The function `skipWhitespaces` on two samples: a comment line followed by an empty line
(one comment line passed, cursor left on the newline at 2), and two newlines before `A`
(no comment, both newlines passed). -/
theorem skipWhitespaces_samples :
    MaximalRun sampleCommentThenEmptyLine ⟨0, 0, 4⟩ isspace 0 0 ∧
    CommentLines sampleCommentThenEmptyLine ⟨0, 0, 4⟩ [(1, 2)] 0 2 ∧
    skipWhitespaces sampleCommentThenEmptyLine ⟨0, 0, 4⟩ = .ok () ⟨2, 0, 4⟩ ∧
    MaximalRun [10, 10, 65] ⟨0, 0, 3⟩ isspace 0 2 ∧
    CommentLines [10, 10, 65] ⟨0, 0, 3⟩ [] 2 2 ∧
    skipWhitespaces [10, 10, 65] ⟨0, 0, 3⟩ = .ok () ⟨2, 0, 3⟩ := by
  decide

end Ofbx
